import Mathlib

/-!
# Verification of the Video_productor caption / media-resolution core

A shallow embedding of the caption grouper (`src/utils/caption_overlay.py`),
the subtitle timing utilities (`src/utils/audio_generator_fr.py`,
`src/utils/voice.py`), the SRT-to-timed-words converter
(`src/utils/caption_generator.py`) and the scene media resolver
(`src/utils/video_composer.py`), together with theorems settling the
specification's claims about them.

Conventions:
* Python floats are modelled by `ℚ` (exact arithmetic).
* Python dict access `d["k"]` on a possibly missing key is modelled by
  `Option` fields; a raised `KeyError` is an overall `none` result.
* The Python field name `end` is reserved in Lean; it is rendered `stop`.
-/

namespace VideoProductor

/-- A timed word as produced by TTS: `{text, start, end}`.
`stop` is the source's `end` field (`end` is reserved in Lean). -/
structure TimedWord where
  text : String
  start : ℚ
  stop : ℚ
  deriving DecidableEq, Repr

/-- A caption block.  The source stores `text = " ".join(words)`; the embedding
keeps the pre-join word list `words` (the source value `words_to_finalize`),
from which the source's `text` is `String.intercalate " " words`. -/
structure Caption where
  start : ℚ
  stop : ℚ
  words : List String
  deriving DecidableEq, Repr

/-- The source's `text` field of a caption block (`" ".join(words_to_finalize)`). -/
def Caption.text (c : Caption) : String := String.intercalate " " c.words

/-- `any(word_text.endswith(p) for p in [".", ",", "!", "?", ";", ":"])`
from `group_words_into_captions` (caption_overlay.py line 85).  Each suffix is
a single character, so `endswith` holds iff the final character is one of the
six punctuation marks. -/
def endsWithPunct (s : String) : Bool :=
  match s.data.getLast? with
  | some c => ['.', ',', '!', '?', ';', ':'].contains c
  | none => false

/-- The open (not yet emitted) caption group of `group_words_into_captions`.
The source keeps three variables `current_group_words`, `current_start_time`,
`last_word_end_time` in lockstep: the two times are `None` exactly when the
word list is empty (their initial values at lines 63-64 are overwritten
before first use, and the defensive reset at lines 80-82 is unreachable);
the embedding bundles the non-empty state into one structure. -/
structure OpenGroup where
  words : List String
  start : ℚ
  lastEnd : ℚ
  deriving DecidableEq, Repr

/-- The scan loop of `group_words_into_captions`
(caption_overlay.py lines 66-128) plus the final safeguard flush
(lines 132-137), as a recursion over the remaining words.
`g?` is the open group (`none` = `current_group_words == []`). -/
def groupLoop (maxW : ℕ) (maxD : ℚ) (g? : Option OpenGroup) :
    List TimedWord → List Caption
  | [] =>
    -- final safeguard: flush a non-empty open group
    match g? with
    | some g => [⟨g.start, g.lastEnd, g.words⟩]
    | none => []
  | w :: rest =>
    match g? with
    | none =>
      -- empty group: `should_finalize` stays false (line 89 guard);
      -- the word opens the group (lines 125-128)
      groupLoop maxW maxD (some ⟨[w.text], w.start, w.stop⟩) rest
    | some g =>
      let exceedsWordLimit := g.words.length ≥ maxW
      let exceedsDuration := w.stop - g.start > maxD
      let endsP := endsWithPunct w.text
      let isLast := rest.isEmpty
      if exceedsWordLimit ∨ exceedsDuration ∨ endsP ∨ isLast then
        if ¬(exceedsWordLimit ∨ exceedsDuration) ∨ isLast then
          -- include the triggering word and close (lines 99-102)
          ⟨g.start, w.stop, g.words ++ [w.text]⟩ :: groupLoop maxW maxD none rest
        else
          -- close without the word; it opens the next group (lines 119-122)
          ⟨g.start, g.lastEnd, g.words⟩ ::
            groupLoop maxW maxD
              (if isLast then none else some ⟨[w.text], w.start, w.stop⟩) rest
      else
        -- keep accumulating (lines 124-128)
        groupLoop maxW maxD (some ⟨g.words ++ [w.text], g.start, w.stop⟩) rest

/-- `group_words_into_captions(timed_words, max_words_per_caption=4,
max_duration_per_caption=4.0)` (caption_overlay.py lines 50-139). -/
def group_words_into_captions (timedWords : List TimedWord)
    (maxWordsPerCaption : ℕ := 4) (maxDurationPerCaption : ℚ := 4) :
    List Caption :=
  match timedWords with
  | [] => []
  | _ => groupLoop maxWordsPerCaption maxDurationPerCaption none timedWords

/-- Concatenation of the word sequences of a list of caption blocks. -/
def wordsOf (cs : List Caption) : List String :=
  cs.foldr (fun c acc => c.words ++ acc) []

@[simp] lemma wordsOf_nil : wordsOf [] = [] := rfl

@[simp] lemma wordsOf_cons (c : Caption) (cs : List Caption) :
    wordsOf (c :: cs) = c.words ++ wordsOf cs := rfl

lemma wordsOf_length (cs : List Caption) :
    (wordsOf cs).length = (cs.map (fun c => c.words.length)).sum := by
  induction cs with
  | nil => rfl
  | cons c cs ih => simp [ih]

/-- `q` is at most the start time of the head of `ws` (vacuous for `[]`). -/
def leHeadStart (q : ℚ) : List TimedWord → Prop
  | [] => True
  | w :: _ => q ≤ w.start

/-- `q` is at most the end time of the head of `ws` (vacuous for `[]`). -/
def leHeadStop (q : ℚ) : List TimedWord → Prop
  | [] => True
  | w :: _ => q ≤ w.stop

/-- Every word of the input appears in the output exactly once, in order:
the loop's output words are the open group's words followed by the texts of
the remaining input words. -/
lemma groupLoop_wordsOf (maxW : ℕ) (maxD : ℚ) :
    ∀ (ws : List TimedWord) (g? : Option OpenGroup),
      wordsOf (groupLoop maxW maxD g? ws) =
        (match g? with | some g => g.words | none => []) ++ ws.map TimedWord.text := by
  intro ws
  induction ws with
  | nil => intro g?; cases g? <;> simp [groupLoop]
  | cons w rest ih =>
    intro g?
    cases g? with
    | none => simpa [groupLoop] using ih (some ⟨[w.text], w.start, w.stop⟩)
    | some g =>
      simp only [groupLoop]
      split_ifs with h1 h2 h3
      · -- include the triggering word
        simp [ih none]
      · -- inner `if isLast` true contradicts the exclusion condition
        rcases not_or.mp h2 with ⟨-, h4⟩
        exact absurd h3 h4
      · -- exclude the triggering word; it opens the next group
        simp [ih (some ⟨[w.text], w.start, w.stop⟩)]
      · -- accumulate
        simp [ih (some ⟨g.words ++ [w.text], g.start, w.stop⟩)]

/-- When the open group is non-empty the loop emits at least one block, the
first emitted block starts at the group's start, and (given non-decreasing
word end times) its end is at least the group's last recorded end. -/
lemma groupLoop_some_head (maxW : ℕ) (maxD : ℚ) :
    ∀ (ws : List TimedWord) (g : OpenGroup),
      List.Chain' (fun a b => a.stop ≤ b.stop) ws →
      leHeadStop g.lastEnd ws →
      ∃ c cs, groupLoop maxW maxD (some g) ws = c :: cs ∧
        c.start = g.start ∧ g.lastEnd ≤ c.stop := by
  intro ws
  induction ws with
  | nil =>
    intro g _ _
    exact ⟨⟨g.start, g.lastEnd, g.words⟩, [], rfl, rfl, le_refl _⟩
  | cons w rest ih =>
    intro g hstop hle
    have hle' : g.lastEnd ≤ w.stop := hle
    simp only [groupLoop]
    split_ifs with h1 h2 h3
    · exact ⟨_, _, rfl, rfl, hle'⟩
    · exact ⟨_, _, rfl, rfl, le_refl _⟩
    · exact ⟨_, _, rfl, rfl, le_refl _⟩
    · have hrest : List.Chain' (fun a b : TimedWord => a.stop ≤ b.stop) rest :=
        hstop.tail
      have hhead : leHeadStop w.stop rest := by
        cases rest with
        | nil => trivial
        | cons r rs => exact (List.chain'_cons.mp hstop).1
      obtain ⟨c, cs, heq, hcs, hce⟩ :=
        ih ⟨g.words ++ [w.text], g.start, w.stop⟩ hrest hhead
      exact ⟨c, cs, heq, hcs, le_trans hle' hce⟩

@[simp] lemma leHeadStart_nil (q : ℚ) : leHeadStart q [] = True := rfl

@[simp] lemma leHeadStart_cons (q : ℚ) (w : TimedWord) (ws : List TimedWord) :
    leHeadStart q (w :: ws) = (q ≤ w.start) := rfl

@[simp] lemma leHeadStop_nil (q : ℚ) : leHeadStop q [] = True := rfl

@[simp] lemma leHeadStop_cons (q : ℚ) (w : TimedWord) (ws : List TimedWord) :
    leHeadStop q (w :: ws) = (q ≤ w.stop) := rfl

/-- Adjacent emitted blocks have non-decreasing starts and non-decreasing
ends, provided the input words have non-decreasing starts and ends and the
open group's recorded times precede the head of the remaining input. -/
lemma groupLoop_chain (maxW : ℕ) (maxD : ℚ) :
    ∀ (ws : List TimedWord) (g? : Option OpenGroup),
      List.Chain' (fun a b => a.start ≤ b.start) ws →
      List.Chain' (fun a b => a.stop ≤ b.stop) ws →
      (∀ g ∈ g?, leHeadStart g.start ws ∧ leHeadStop g.lastEnd ws) →
      List.Chain' (fun a b : Caption => a.start ≤ b.start ∧ a.stop ≤ b.stop)
        (groupLoop maxW maxD g? ws) := by
  intro ws
  induction ws with
  | nil => intro g? _ _ _; cases g? <;> simp [groupLoop]
  | cons w rest ih =>
    intro g? hstart hstop hg
    cases g? with
    | none =>
      simp only [groupLoop]
      apply ih _ hstart.tail hstop.tail
      intro g' hm
      simp only [Option.mem_def, Option.some.injEq] at hm
      subst hm
      refine ⟨?_, ?_⟩ <;>
        cases rest with
        | nil => trivial
        | cons r rs =>
          first
          | exact (List.chain'_cons.mp hstart).1
          | exact (List.chain'_cons.mp hstop).1
    | some g =>
      obtain ⟨hgs, hge⟩ := hg g rfl
      rw [leHeadStart_cons] at hgs
      rw [leHeadStop_cons] at hge
      simp only [groupLoop]
      split_ifs with h1 h2 h3
      · -- include the triggering word and close
        rw [List.chain'_cons']
        constructor
        · intro y hy
          cases rest with
          | nil => simp [groupLoop] at hy
          | cons r rs =>
            have hrs_stop : List.Chain' (fun a b : TimedWord => a.stop ≤ b.stop) rs :=
              hstop.tail.tail
            have hhead : leHeadStop r.stop rs := by
              cases rs with
              | nil => trivial
              | cons r2 rs2 => exact (List.chain'_cons.mp hstop.tail).1
            obtain ⟨c, cs, heq, hcstart, hcstop⟩ :=
              groupLoop_some_head maxW maxD rs ⟨[r.text], r.start, r.stop⟩ hrs_stop hhead
            have hun : groupLoop maxW maxD none (r :: rs) = c :: cs := by
              simpa only [groupLoop] using heq
            rw [hun] at hy
            simp only [List.head?_cons, Option.mem_def, Option.some.injEq] at hy
            subst hy
            constructor
            · rw [hcstart]
              exact le_trans hgs (List.chain'_cons.mp hstart).1
            · exact le_trans (List.chain'_cons.mp hstop).1 hcstop
        · apply ih none hstart.tail hstop.tail
          intro g' hm
          simp at hm
      · rcases not_or.mp h2 with ⟨-, h4⟩
        exact absurd h3 h4
      · -- close without the word; the word opens the next group
        have hheadstart : leHeadStart w.start rest := by
          cases rest with
          | nil => trivial
          | cons r rs => exact (List.chain'_cons.mp hstart).1
        have hheadstop : leHeadStop w.stop rest := by
          cases rest with
          | nil => trivial
          | cons r rs => exact (List.chain'_cons.mp hstop).1
        rw [List.chain'_cons']
        constructor
        · intro y hy
          obtain ⟨c, cs, heq, hcstart, hcstop⟩ :=
            groupLoop_some_head maxW maxD rest ⟨[w.text], w.start, w.stop⟩
              hstop.tail hheadstop
          rw [heq] at hy
          simp only [List.head?_cons, Option.mem_def, Option.some.injEq] at hy
          subst hy
          exact ⟨by rw [hcstart]; exact hgs, le_trans hge hcstop⟩
        · apply ih _ hstart.tail hstop.tail
          intro g' hm
          simp only [Option.mem_def, Option.some.injEq] at hm
          subst hm
          exact ⟨hheadstart, hheadstop⟩
      · -- keep accumulating
        apply ih _ hstart.tail hstop.tail
        intro g' hm
        simp only [Option.mem_def, Option.some.injEq] at hm
        subst hm
        refine ⟨?_, ?_⟩
        · cases rest with
          | nil => trivial
          | cons r rs =>
            exact le_trans hgs (List.chain'_cons.mp hstart).1
        · cases rest with
          | nil => trivial
          | cons r rs => exact (List.chain'_cons.mp hstop).1

lemma forall_dropLast_cons {P : Caption → Prop} {B : Caption} {l : List Caption}
    (hB : P B) (hl : ∀ c ∈ l.dropLast, P c) : ∀ c ∈ (B :: l).dropLast, P c := by
  cases l with
  | nil => intro c hc; simp at hc
  | cons x xs =>
    intro c hc
    rw [show (B :: x :: xs).dropLast = B :: (x :: xs).dropLast from rfl] at hc
    rcases List.mem_cons.mp hc with hc | hc
    · exact hc ▸ hB
    · exact hl c hc

/-- Word-count bounds: every emitted block has at most `maxW + 1` words, and
every block except possibly the last has at most `maxW` words.  (The final
input word is force-included even into a full group, which is the only way a
block can reach `maxW + 1` words.) -/
lemma groupLoop_count (maxW : ℕ) (maxD : ℚ) (hW : 1 ≤ maxW) :
    ∀ (ws : List TimedWord) (g? : Option OpenGroup),
      (∀ g ∈ g?, g.words.length ≤ maxW) →
      (∀ c ∈ groupLoop maxW maxD g? ws, c.words.length ≤ maxW + 1) ∧
      (∀ c ∈ (groupLoop maxW maxD g? ws).dropLast, c.words.length ≤ maxW) := by
  intro ws
  induction ws with
  | nil =>
    intro g? hg
    cases g? with
    | none => simp [groupLoop]
    | some g =>
      refine ⟨?_, ?_⟩
      · intro c hc
        simp only [groupLoop, List.mem_singleton] at hc
        subst hc
        exact le_trans (hg g rfl) (Nat.le_succ _)
      · intro c hc
        simp [groupLoop] at hc
  | cons w rest ih =>
    intro g? hg
    cases g? with
    | none =>
      simp only [groupLoop]
      apply ih
      intro g' hm
      simp only [Option.mem_def, Option.some.injEq] at hm
      subst hm
      simpa using hW
    | some g =>
      have hlen : g.words.length ≤ maxW := hg g rfl
      simp only [groupLoop]
      split_ifs with h1 h2 h3
      · -- include the triggering word and close
        have hrest := ih none (by intro g' hm; simp at hm)
        have hBbig : (g.words ++ [w.text]).length ≤ maxW + 1 := by
          simp; omega
        constructor
        · intro c hc
          rcases List.mem_cons.mp hc with hc | hc
          · exact hc ▸ hBbig
          · exact hrest.1 c hc
        · rcases h2 with h2 | h2
          · -- limits not exceeded before this word: the closed block fits maxW
            have hlt : g.words.length < maxW := by
              rcases not_or.mp h2 with ⟨hnW, -⟩
              omega
            have hB : (g.words ++ [w.text]).length ≤ maxW := by
              simp; omega
            exact forall_dropLast_cons hB hrest.2
          · -- the triggering word is the last word: the block is the last block
            have : rest = [] := by simpa using h2
            subst this
            intro c hc
            simp [groupLoop] at hc
      · rcases not_or.mp h2 with ⟨-, h4⟩
        exact absurd h3 h4
      · -- close without the word
        have hrest := ih (some ⟨[w.text], w.start, w.stop⟩) ?side
        case side =>
          intro g' hm
          simp only [Option.mem_def, Option.some.injEq] at hm
          subst hm
          simpa using hW
        constructor
        · intro c hc
          rcases List.mem_cons.mp hc with hc | hc
          · exact hc ▸ le_trans hlen (Nat.le_succ _)
          · exact hrest.1 c hc
        · exact forall_dropLast_cons hlen hrest.2
      · -- keep accumulating
        have hnW : ¬ g.words.length ≥ maxW := fun h => h1 (Or.inl h)
        apply ih
        intro g' hm
        simp only [Option.mem_def, Option.some.injEq] at hm
        subst hm
        simp; omega

/-- Every emitted block satisfies `start ≤ end`, provided every word does and
word start times are non-decreasing. -/
lemma groupLoop_startLeStop (maxW : ℕ) (maxD : ℚ) :
    ∀ (ws : List TimedWord) (g? : Option OpenGroup),
      (∀ w ∈ ws, w.start ≤ w.stop) →
      List.Chain' (fun a b => a.start ≤ b.start) ws →
      (∀ g ∈ g?, g.start ≤ g.lastEnd ∧ leHeadStart g.start ws) →
      ∀ c ∈ groupLoop maxW maxD g? ws, c.start ≤ c.stop := by
  intro ws
  induction ws with
  | nil =>
    intro g? _ _ hg c hc
    cases g? with
    | none => simp [groupLoop] at hc
    | some g =>
      simp only [groupLoop, List.mem_singleton] at hc
      subst hc
      exact (hg g rfl).1
  | cons w rest ih =>
    intro g? hwf hstart hg
    have hw : w.start ≤ w.stop := hwf w (List.mem_cons_self _ _)
    have hheadstart : leHeadStart w.start rest := by
      cases rest with
      | nil => trivial
      | cons r rs => exact (List.chain'_cons.mp hstart).1
    cases g? with
    | none =>
      simp only [groupLoop]
      apply ih _ (fun x hx => hwf x (List.mem_cons_of_mem _ hx)) hstart.tail
      intro g' hm
      simp only [Option.mem_def, Option.some.injEq] at hm
      subst hm
      exact ⟨hw, hheadstart⟩
    | some g =>
      obtain ⟨hginv, hghead⟩ := hg g rfl
      rw [leHeadStart_cons] at hghead
      simp only [groupLoop]
      split_ifs with h1 h2 h3
      · intro c hc
        rcases List.mem_cons.mp hc with hc | hc
        · subst hc
          exact le_trans hghead hw
        · exact ih none (fun x hx => hwf x (List.mem_cons_of_mem _ hx))
            hstart.tail (by intro g' hm; simp at hm) c hc
      · rcases not_or.mp h2 with ⟨-, h4⟩
        exact absurd h3 h4
      · intro c hc
        rcases List.mem_cons.mp hc with hc | hc
        · subst hc
          exact hginv
        · refine ih (some ⟨[w.text], w.start, w.stop⟩)
            (fun x hx => hwf x (List.mem_cons_of_mem _ hx)) hstart.tail ?_ c hc
          intro g' hm
          simp only [Option.mem_def, Option.some.injEq] at hm
          subst hm
          exact ⟨hw, hheadstart⟩
      · apply ih (some ⟨g.words ++ [w.text], g.start, w.stop⟩)
          (fun x hx => hwf x (List.mem_cons_of_mem _ hx)) hstart.tail
        intro g' hm
        simp only [Option.mem_def, Option.some.injEq] at hm
        subst hm
        refine ⟨le_trans hghead hw, ?_⟩
        cases rest with
        | nil => trivial
        | cons r rs =>
          exact le_trans hghead (List.chain'_cons.mp hstart).1

lemma group_eq_loop (ws : List TimedWord) (maxW : ℕ) (maxD : ℚ) :
    group_words_into_captions ws maxW maxD = groupLoop maxW maxD none ws := by
  cases ws <;> rfl

instance : IsTrans Caption (fun a b => a.start ≤ b.start) :=
  ⟨fun _ _ _ h1 h2 => le_trans h1 h2⟩

instance : IsTrans Caption (fun a b => a.stop ≤ b.stop) :=
  ⟨fun _ _ _ h1 h2 => le_trans h1 h2⟩

/-- C2, counterexample.  For the three words `("a",0,10)`, `("b.",1,5)`,
`("c",6,7)` — sorted by start, each with `end ≥ start` — the grouper emits the
blocks `(0,10,"a")` and `(1,7,"b. c")`, whose end times decrease (10 then 7),
refuting the claim that the blocks' end times are always non-decreasing for
every non-empty start-sorted input. -/
theorem claim_C2_counterexample :
    List.Chain' (fun a b : TimedWord => a.start ≤ b.start)
      [⟨"a", 0, 10⟩, ⟨"b.", 1, 5⟩, ⟨"c", 6, 7⟩] ∧
    (∀ w ∈ [(⟨"a", 0, 10⟩ : TimedWord), ⟨"b.", 1, 5⟩, ⟨"c", 6, 7⟩], w.start ≤ w.stop) ∧
    group_words_into_captions [⟨"a", 0, 10⟩, ⟨"b.", 1, 5⟩, ⟨"c", 6, 7⟩] 4 4 =
      [⟨0, 10, ["a"]⟩, ⟨1, 7, ["b.", "c"]⟩] ∧
    ¬ List.Pairwise (fun a b : Caption => a.stop ≤ b.stop)
      (group_words_into_captions [⟨"a", 0, 10⟩, ⟨"b.", 1, 5⟩, ⟨"c", 6, 7⟩] 4 4) := by
  have heval : group_words_into_captions
      [⟨"a", 0, 10⟩, ⟨"b.", 1, 5⟩, ⟨"c", 6, 7⟩] 4 4 =
      [⟨0, 10, ["a"]⟩, ⟨1, 7, ["b.", "c"]⟩] := by
    norm_num [group_words_into_captions, groupLoop,
      show endsWithPunct "a" = false from by decide,
      show endsWithPunct "b." = true from by decide,
      show endsWithPunct "c" = false from by decide]
  refine ⟨?_, ?_, heval, ?_⟩
  · simp only [List.chain'_cons, List.chain'_singleton, and_true]
    norm_num
  · intro w hw
    fin_cases hw <;> norm_num
  · rw [heval]
    intro h
    have h10 := (List.pairwise_cons.mp h).1 _ (List.mem_cons_self _ _)
    norm_num at h10

/-- C2 (amended): for every non-empty TimedWord list sorted by start whose end
times are also non-decreasing (as for non-overlapping words), the blocks
returned by `group_words_into_captions` contain every input word exactly once
and in input order — the concatenation of the blocks' word sequences equals
the input word sequence, and the summed word counts equal the input word
count — and both the blocks' start times and the blocks' end times are
non-decreasing across the output sequence. -/
theorem claim_C2_grouping (ws : List TimedWord) (maxW : ℕ) (maxD : ℚ)
    (_hne : ws ≠ [])
    (hstart : List.Chain' (fun a b => a.start ≤ b.start) ws)
    (hstop : List.Chain' (fun a b => a.stop ≤ b.stop) ws) :
    wordsOf (group_words_into_captions ws maxW maxD) = ws.map TimedWord.text ∧
    ((group_words_into_captions ws maxW maxD).map (fun c => c.words.length)).sum
      = ws.length ∧
    List.Pairwise (fun a b : Caption => a.start ≤ b.start)
      (group_words_into_captions ws maxW maxD) ∧
    List.Pairwise (fun a b : Caption => a.stop ≤ b.stop)
      (group_words_into_captions ws maxW maxD) := by
  rw [group_eq_loop]
  have hflat : wordsOf (groupLoop maxW maxD none ws) = ws.map TimedWord.text := by
    simpa using groupLoop_wordsOf maxW maxD ws none
  have hchain := groupLoop_chain maxW maxD ws none hstart hstop
    (by intro g hm; simp at hm)
  refine ⟨hflat, ?_, ?_, ?_⟩
  · have hlen := congrArg List.length hflat
    rw [wordsOf_length] at hlen
    simpa using hlen
  · exact List.chain'_iff_pairwise.mp (hchain.imp fun _ _ h => h.1)
  · exact List.chain'_iff_pairwise.mp (hchain.imp fun _ _ h => h.2)

/-- Witness for C2's amended theorem at the spec's round-trip example
`[("Bonjour",0,0.4), ("tout",0.4,0.6), ("le",0.6,0.7), ("monde.",0.7,1.2)]`. -/
theorem claim_C2_witness :
    wordsOf (group_words_into_captions
      [⟨"Bonjour", 0, 2/5⟩, ⟨"tout", 2/5, 3/5⟩, ⟨"le", 3/5, 7/10⟩, ⟨"monde.", 7/10, 6/5⟩] 4 4)
      = ["Bonjour", "tout", "le", "monde."] ∧
    ((group_words_into_captions
      [⟨"Bonjour", 0, 2/5⟩, ⟨"tout", 2/5, 3/5⟩, ⟨"le", 3/5, 7/10⟩, ⟨"monde.", 7/10, 6/5⟩] 4 4).map
        (fun c => c.words.length)).sum = 4 ∧
    List.Pairwise (fun a b : Caption => a.start ≤ b.start)
      (group_words_into_captions
        [⟨"Bonjour", 0, 2/5⟩, ⟨"tout", 2/5, 3/5⟩, ⟨"le", 3/5, 7/10⟩, ⟨"monde.", 7/10, 6/5⟩] 4 4) ∧
    List.Pairwise (fun a b : Caption => a.stop ≤ b.stop)
      (group_words_into_captions
        [⟨"Bonjour", 0, 2/5⟩, ⟨"tout", 2/5, 3/5⟩, ⟨"le", 3/5, 7/10⟩, ⟨"monde.", 7/10, 6/5⟩] 4 4) := by
  have h := claim_C2_grouping
    [⟨"Bonjour", 0, 2/5⟩, ⟨"tout", 2/5, 3/5⟩, ⟨"le", 3/5, 7/10⟩, ⟨"monde.", 7/10, 6/5⟩] 4 4
    (by simp)
    (by simp only [List.chain'_cons, List.chain'_singleton, and_true]; norm_num)
    (by simp only [List.chain'_cons, List.chain'_singleton, and_true]; norm_num)
  simpa using h

/-- C3, counterexample.  Five well-formed, start-sorted words with no
punctuation and `max_words = 4` (`max_duration = 100`): the words `w1..w4`
fill the group, and the final word `w5` is force-included, producing a single
block of 5 > 4 words — refuting «every block contains at most `max_words`
words». -/
theorem claim_C3_counterexample :
    (∀ w ∈ [(⟨"w1", 0, 1⟩ : TimedWord), ⟨"w2", 1, 2⟩, ⟨"w3", 2, 3⟩,
        ⟨"w4", 3, 4⟩, ⟨"w5", 4, 5⟩], w.start ≤ w.stop) ∧
    List.Chain' (fun a b : TimedWord => a.start ≤ b.start)
      [⟨"w1", 0, 1⟩, ⟨"w2", 1, 2⟩, ⟨"w3", 2, 3⟩, ⟨"w4", 3, 4⟩, ⟨"w5", 4, 5⟩] ∧
    (group_words_into_captions
      [⟨"w1", 0, 1⟩, ⟨"w2", 1, 2⟩, ⟨"w3", 2, 3⟩, ⟨"w4", 3, 4⟩, ⟨"w5", 4, 5⟩] 4 100).map
      (fun c => c.words.length) = [5] ∧
    ¬ (5 : ℕ) ≤ 4 := by
  have heval : group_words_into_captions
      [⟨"w1", 0, 1⟩, ⟨"w2", 1, 2⟩, ⟨"w3", 2, 3⟩, ⟨"w4", 3, 4⟩, ⟨"w5", 4, 5⟩] 4 100 =
      [⟨0, 5, ["w1", "w2", "w3", "w4", "w5"]⟩] := by
    norm_num [group_words_into_captions, groupLoop,
      show endsWithPunct "w1" = false from by decide,
      show endsWithPunct "w2" = false from by decide,
      show endsWithPunct "w3" = false from by decide,
      show endsWithPunct "w4" = false from by decide,
      show endsWithPunct "w5" = false from by decide]
  refine ⟨?_, ?_, by rw [heval]; rfl, by omega⟩
  · intro w hw
    fin_cases hw <;> norm_num
  · simp only [List.chain'_cons, List.chain'_singleton, and_true]
    norm_num

/-- C3 (amended): for every data-model-conforming word list (each word with
`end ≥ start`, sorted by start) and every `max_words ≥ 1`, every block
satisfies `block.end ≥ block.start`; every block except possibly the last
contains at most `max_words` words, and even the last block — where the final
input word may be force-included into an already-full group — contains at
most `max_words + 1` words. -/
theorem claim_C3_blocks (ws : List TimedWord) (maxW : ℕ) (maxD : ℚ)
    (hW : 1 ≤ maxW)
    (hwf : ∀ w ∈ ws, w.start ≤ w.stop)
    (hstart : List.Chain' (fun a b => a.start ≤ b.start) ws) :
    (∀ c ∈ group_words_into_captions ws maxW maxD, c.start ≤ c.stop) ∧
    (∀ c ∈ group_words_into_captions ws maxW maxD, c.words.length ≤ maxW + 1) ∧
    (∀ c ∈ (group_words_into_captions ws maxW maxD).dropLast,
      c.words.length ≤ maxW) := by
  rw [group_eq_loop]
  exact ⟨groupLoop_startLeStop maxW maxD ws none hwf hstart
      (by intro g hm; simp at hm),
    (groupLoop_count maxW maxD hW ws none (by intro g hm; simp at hm)).1,
    (groupLoop_count maxW maxD hW ws none (by intro g hm; simp at hm)).2⟩

/-- Witness for C3's amended theorem at the round-trip example. -/
theorem claim_C3_witness :
    (∀ c ∈ group_words_into_captions
      [⟨"Bonjour", 0, 2/5⟩, ⟨"tout", 2/5, 3/5⟩, ⟨"le", 3/5, 7/10⟩,
        ⟨"monde.", 7/10, 6/5⟩] 4 4, c.start ≤ c.stop) ∧
    (∀ c ∈ group_words_into_captions
      [⟨"Bonjour", 0, 2/5⟩, ⟨"tout", 2/5, 3/5⟩, ⟨"le", 3/5, 7/10⟩,
        ⟨"monde.", 7/10, 6/5⟩] 4 4, c.words.length ≤ 4 + 1) ∧
    (∀ c ∈ (group_words_into_captions
      [⟨"Bonjour", 0, 2/5⟩, ⟨"tout", 2/5, 3/5⟩, ⟨"le", 3/5, 7/10⟩,
        ⟨"monde.", 7/10, 6/5⟩] 4 4).dropLast, c.words.length ≤ 4) :=
  claim_C3_blocks
    [⟨"Bonjour", 0, 2/5⟩, ⟨"tout", 2/5, 3/5⟩, ⟨"le", 3/5, 7/10⟩, ⟨"monde.", 7/10, 6/5⟩]
    4 4 (by norm_num)
    (by intro w hw; fin_cases hw <;> norm_num)
    (by simp only [List.chain'_cons, List.chain'_singleton, and_true]; norm_num)

/-! ## Timed-word extraction (`get_timed_words_from_submaker`) and Python
rounding (`round(x, 3)`), audio_generator_fr.py lines 154-185 / voice.py
lines 420-453. -/

/-- Python's `round` to the nearest integer, ties to even. -/
def roundHalfEven (y : ℚ) : ℤ :=
  let f : ℤ := ⌊y⌋
  let r : ℚ := y - (f : ℚ)
  if 1/2 < r then f + 1 else if r < 1/2 then f else if f % 2 = 0 then f else f + 1

/-- Python's `round(x, 3)`. -/
def round3 (x : ℚ) : ℚ := (roundHalfEven (x * 1000) : ℚ) / 1000

lemma roundHalfEven_ge_floor (y : ℚ) : ⌊y⌋ ≤ roundHalfEven y := by
  simp only [roundHalfEven]
  split_ifs <;> omega

lemma roundHalfEven_le_floor_add_one (y : ℚ) : roundHalfEven y ≤ ⌊y⌋ + 1 := by
  simp only [roundHalfEven]
  split_ifs <;> omega

lemma roundHalfEven_le_add_half (y : ℚ) : (roundHalfEven y : ℚ) ≤ y + 1/2 := by
  have hfl : (⌊y⌋ : ℚ) ≤ y := Int.floor_le y
  simp only [roundHalfEven]
  split_ifs with h1 h2 h3 <;> push_cast <;> linarith

lemma roundHalfEven_intCast (k : ℤ) : roundHalfEven (k : ℚ) = k := by
  simp only [roundHalfEven, Int.floor_intCast]
  have h1 : ¬ (1:ℚ)/2 < (k : ℚ) - (k : ℚ) := by norm_num
  have h2 : (k : ℚ) - (k : ℚ) < 1/2 := by norm_num
  rw [if_neg h1, if_pos h2]

lemma roundHalfEven_mono {x y : ℚ} (h : x ≤ y) :
    roundHalfEven x ≤ roundHalfEven y := by
  have hf : ⌊x⌋ ≤ ⌊y⌋ := Int.floor_mono h
  rcases eq_or_lt_of_le hf with heq | hlt
  · have hr : x - (⌊x⌋ : ℚ) ≤ y - (⌊y⌋ : ℚ) := by
      rw [← heq]; linarith
    simp only [roundHalfEven]
    rw [← heq]
    split_ifs <;> first | omega | linarith
  · calc roundHalfEven x ≤ ⌊x⌋ + 1 := roundHalfEven_le_floor_add_one x
      _ ≤ ⌊y⌋ := by omega
      _ ≤ roundHalfEven y := roundHalfEven_ge_floor y

lemma round3_mono {x y : ℚ} (h : x ≤ y) : round3 x ≤ round3 y := by
  unfold round3
  have := roundHalfEven_mono (mul_le_mul_of_nonneg_right h (by norm_num : (0:ℚ) ≤ 1000))
  have hc : ((roundHalfEven (x * 1000) : ℚ)) ≤ ((roundHalfEven (y * 1000) : ℚ)) := by
    exact_mod_cast this
  linarith

lemma round3_int_div (k : ℤ) : round3 ((k : ℚ) / 1000) = (k : ℚ) / 1000 := by
  unfold round3
  rw [div_mul_cancel₀ _ (by norm_num : (1000:ℚ) ≠ 0), roundHalfEven_intCast]

lemma round3_le_int_div (x : ℚ) (k : ℤ) (h : x ≤ (k : ℚ) / 1000) :
    round3 x ≤ (k : ℚ) / 1000 := by
  have hy : x * 1000 ≤ (k : ℚ) := by
    rw [div_eq_mul_inv] at h
    nlinarith
  have hle : (roundHalfEven (x * 1000) : ℚ) ≤ (k : ℚ) + 1/2 :=
    le_trans (roundHalfEven_le_add_half _) (by linarith)
  have hint : roundHalfEven (x * 1000) ≤ k := by
    have : (roundHalfEven (x * 1000) : ℚ) < (k : ℚ) + 1 := by linarith
    exact_mod_cast Int.lt_add_one_iff.mp (by exact_mod_cast this)
  unfold round3
  have : (roundHalfEven (x * 1000) : ℚ) ≤ (k : ℚ) := by exact_mod_cast hint
  linarith

/-- One word of `get_timed_words_from_submaker` (audio_generator_fr.py lines
169-184): 100 ns ticks to seconds, clamp `end < start` to `end = start`,
round both to 3 decimals.  The `unescape(...).strip()` on the token text is
an external XML helper; tokens are modelled as the already-cleaned strings. -/
def wordFromSub (t : String) (startNs endNs : ℚ) : TimedWord :=
  let start_sec := startNs / 10000000
  let end_sec := endNs / 10000000
  let end_sec := if end_sec < start_sec then start_sec else end_sec
  ⟨t, round3 start_sec, round3 end_sec⟩

/-- `get_timed_words_from_submaker` (audio_generator_fr.py lines 154-185):
empty subs or offsets give `[]`; otherwise the first
`min(len(subs), len(offset))` pairs are converted (the source loops over
`range(min_len)`; `zip` takes the same pairs). -/
def get_timed_words_from_submaker (subs : List String)
    (offsets : List (ℚ × ℚ)) : List TimedWord :=
  if subs.isEmpty || offsets.isEmpty then []
  else (subs.zip offsets).map (fun p => wordFromSub p.1 p.2.1 p.2.2)

/-- A caption-JSON entry as a Python dict: any of the three keys may be
missing.  (`load_captions` would reject such an entry; the claim is about
feeding it to the grouper directly.) -/
structure RawWord where
  text : Option String
  start : Option ℚ
  stop : Option ℚ
  deriving DecidableEq, Repr

/-- `word_info["text"]` / `["start"]` / `["end"]`: all three keys looked up;
any missing key raises `KeyError`. -/
def rawToTimed (w : RawWord) : Option TimedWord :=
  match w.text, w.start, w.stop with
  | some t, some s, some e => some ⟨t, s, e⟩
  | _, _, _ => none

/-- Field extraction for the whole batch: the first missing key aborts the
call (the `KeyError` escapes `group_words_into_captions`). -/
def extractWords : List RawWord → Option (List TimedWord)
  | [] => some []
  | w :: rest =>
    match rawToTimed w with
    | none => none
    | some tw => (extractWords rest).map (fun ts => tw :: ts)

/-- `group_words_into_captions` on raw dict entries: `none` models an escaped
`KeyError`. -/
def groupWordsRaw (ws : List RawWord) (maxW : ℕ) (maxD : ℚ) :
    Option (List Caption) :=
  (extractWords ws).map (fun tws => group_words_into_captions tws maxW maxD)

lemma extractWords_isSome (ws : List RawWord)
    (h : ∀ w ∈ ws, w.text.isSome ∧ w.start.isSome ∧ w.stop.isSome) :
    (extractWords ws).isSome := by
  induction ws with
  | nil => rfl
  | cons w rest ih =>
    obtain ⟨ht, hs, he⟩ := h w (List.mem_cons_self _ _)
    have hr := ih (fun x hx => h x (List.mem_cons_of_mem _ hx))
    simp only [extractWords]
    rcases hwt : w.text with _ | t
    · rw [hwt] at ht; simp at ht
    rcases hws : w.start with _ | s
    · rw [hws] at hs; simp at hs
    rcases hwe : w.stop with _ | e
    · rw [hwe] at he; simp at he
    rcases hext : extractWords rest with _ | l
    · rw [hext] at hr; simp at hr
    simp [rawToTimed, hwt, hws, hwe, hext]

lemma extractWords_missing (ws : List RawWord)
    (h : ∃ w ∈ ws, w.text = none ∨ w.start = none ∨ w.stop = none) :
    extractWords ws = none := by
  induction ws with
  | nil => simp at h
  | cons w rest ih =>
    rcases h with ⟨x, hx, hmiss⟩
    rcases List.mem_cons.mp hx with rfl | hx'
    · simp only [extractWords]
      have : rawToTimed x = none := by
        unfold rawToTimed
        rcases hmiss with h | h | h <;> rw [h] <;>
          rcases x.text with _ | t <;> rcases x.start with _ | s <;>
          rcases x.stop with _ | e <;> simp_all
      rw [this]
    · simp only [extractWords]
      rcases rawToTimed w with _ | tw
      · rfl
      · rw [ih ⟨x, hx', hmiss⟩]
        rfl

/-- C8, counterexample.  (1) A batch whose first word lacks the `text` key
makes `group_words_into_captions` raise (`none`): the rest of the batch is
*not* grouped, contrary to the claim that the malformed word is skipped over.
(2) A word with `end < start` (here `(5,3)`) is grouped as-is — the emitted
block keeps `end = 3`, not the claimed clamped `end = start = 5`. -/
theorem claim_C8_counterexample :
    groupWordsRaw [⟨none, some 0, some 1⟩, ⟨some "b", some 1, some 2⟩] 4 4
      = none ∧
    group_words_into_captions [⟨"a", 5, 3⟩] 4 4 = [⟨5, 3, ["a"]⟩] ∧
    ¬ ((5 : ℚ) ≤ 3) := by
  refine ⟨rfl, ?_, by norm_num⟩
  norm_num [group_words_into_captions, groupLoop]

/-- C8 (amended): `group_words_into_captions` never raises for well-formed
input (all of `start`/`end`/`text` present); a word *missing* one of those
keys makes the whole call raise `KeyError` instead of being skipped, and a
word with `end < start` is grouped with its times unchanged.  The claimed
clamping lives upstream: `get_timed_words_from_submaker` turns each word with
`end < start` into a zero-duration word at `start` and continues with the
rest of the batch (its output length is `min(len(subs), len(offsets))` and
every emitted word satisfies `start ≤ end`). -/
theorem claim_C8_malformed :
    (∀ (ws : List RawWord) (maxW : ℕ) (maxD : ℚ),
      (∀ w ∈ ws, w.text.isSome ∧ w.start.isSome ∧ w.stop.isSome) →
      (groupWordsRaw ws maxW maxD).isSome) ∧
    (∀ (ws : List RawWord) (maxW : ℕ) (maxD : ℚ),
      (∃ w ∈ ws, w.text = none ∨ w.start = none ∨ w.stop = none) →
      groupWordsRaw ws maxW maxD = none) ∧
    (∀ (subs : List String) (offsets : List (ℚ × ℚ)),
      ¬ (subs.isEmpty || offsets.isEmpty) = true →
      (get_timed_words_from_submaker subs offsets).length
        = min subs.length offsets.length) ∧
    (∀ (subs : List String) (offsets : List (ℚ × ℚ)),
      ∀ w ∈ get_timed_words_from_submaker subs offsets, w.start ≤ w.stop) ∧
    (∀ (t : String) (sNs eNs : ℚ), eNs / 10000000 < sNs / 10000000 →
      wordFromSub t sNs eNs
        = ⟨t, round3 (sNs / 10000000), round3 (sNs / 10000000)⟩) := by
  refine ⟨?_, ?_, ?_, ?_, ?_⟩
  · intro ws maxW maxD h
    unfold groupWordsRaw
    rcases hext : extractWords ws with _ | l
    · have := extractWords_isSome ws h
      rw [hext] at this
      simp at this
    · rfl
  · intro ws maxW maxD h
    unfold groupWordsRaw
    rw [extractWords_missing ws h]
    rfl
  · intro subs offsets h
    unfold get_timed_words_from_submaker
    rw [if_neg h]
    simp [List.length_zip]
  · intro subs offsets w hw
    unfold get_timed_words_from_submaker at hw
    split_ifs at hw with h
    · simp at hw
    · rcases List.mem_map.mp hw with ⟨p, -, hp⟩
      subst hp
      unfold wordFromSub
      dsimp only
      split_ifs with hlt
      · exact le_refl _
      · exact round3_mono (not_lt.mp hlt)
  · intro t sNs eNs h
    unfold wordFromSub
    dsimp only
    rw [if_pos h]

/-- Witness for C8's amended theorem: a well-formed batch is grouped
(no exception), and a 100 ns-tick word pair with `end < start`
(`(30000000, 10000000)` ticks, i.e. 3 s > 1 s) is clamped to the
zero-duration word at 3 s. -/
theorem claim_C8_witness :
    (groupWordsRaw [⟨some "a", some 0, some 1⟩] 4 4).isSome ∧
    wordFromSub "x" 30000000 10000000
      = ⟨"x", round3 (30000000 / 10000000), round3 (30000000 / 10000000)⟩ := by
  constructor
  · exact claim_C8_malformed.1 [⟨some "a", some 0, some 1⟩] 4 4
      (by intro w hw; fin_cases hw; simp)
  · exact claim_C8_malformed.2.2.2.2 "x" 30000000 10000000 (by norm_num)

/-! ## SRT timestamp formatting (`format_time_srt`),
audio_generator_fr.py lines 145-152. -/

/-- Python `f"{n:02d}"` for `n ≥ 0`: left-pad with zeros to width 2. -/
def pad2 (n : ℕ) : String := if n < 10 then "0" ++ toString n else toString n

/-- Python `f"{n:03d}"` for `n ≥ 0`: left-pad with zeros to width 3. -/
def pad3 (n : ℕ) : String :=
  if n < 10 then "00" ++ toString n
  else if n < 100 then "0" ++ toString n
  else toString n

/-- `format_time_srt(seconds)` (audio_generator_fr.py lines 145-152):
clamp negatives to zero, truncate to whole milliseconds
(`int()` truncates toward zero, which is the floor once `seconds ≥ 0`),
then three `divmod`s and zero-padded rendering. -/
def format_time_srt (seconds : ℚ) : String :=
  let seconds := if seconds < 0 then 0 else seconds
  let total_milliseconds := (⌊seconds * 1000⌋).toNat
  let hours := total_milliseconds / 3600000
  let r1 := total_milliseconds % 3600000
  let minutes := r1 / 60000
  let r2 := r1 % 60000
  let seconds_part := r2 / 1000
  let milliseconds := r2 % 1000
  pad2 hours ++ ":" ++ pad2 minutes ++ ":" ++ pad2 seconds_part ++ ","
    ++ pad3 milliseconds

/-- C7: `format_time_srt` renders `HH:MM:SS,mmm` with sub-millisecond
precision truncated (formatting `t` equals formatting `t` truncated to whole
milliseconds), negative times clamped to zero, a non-wrapping hour field
(90 hours render as `90`, not `90 mod 24`), and `3725.256 s` renders as
`01:02:05,256`. -/
theorem claim_C7_format_time :
    (∀ t : ℚ, t < 0 → format_time_srt t = "00:00:00,000") ∧
    (∀ t : ℚ, 0 ≤ t →
      format_time_srt t = format_time_srt ((⌊t * 1000⌋ : ℚ) / 1000)) ∧
    format_time_srt (3725256 / 1000) = "01:02:05,256" ∧
    format_time_srt (90 * 3600) = "90:00:00,000" := by
  refine ⟨?_, ?_, ?_, ?_⟩
  · intro t ht
    unfold format_time_srt
    rw [if_pos ht]
    norm_num [pad2, pad3]
    rfl
  · intro t ht
    have hfl : (0 : ℤ) ≤ ⌊t * 1000⌋ := by
      apply Int.floor_nonneg.mpr
      positivity
    have h1 : ¬ t < 0 := not_lt.mpr ht
    have h2 : ¬ ((⌊t * 1000⌋ : ℚ) / 1000) < 0 := by
      rw [not_lt]
      apply div_nonneg _ (by norm_num)
      exact_mod_cast hfl
    simp only [format_time_srt]
    rw [if_neg h1, if_neg h2, div_mul_cancel₀ _ (by norm_num : (1000:ℚ) ≠ 0),
      Int.floor_intCast]
  · norm_num [format_time_srt, pad2, pad3, Int.toNat_ofNat]
    rfl
  · norm_num [format_time_srt, pad2, pad3, Int.toNat_ofNat]
    rfl

/-- Witness for C7 at `t = -5` (clamped to zero) and the truncation equation
at `t = 3725256/1000 + 1/3000` (a sub-millisecond excess that must not change
the rendering). -/
theorem claim_C7_witness :
    format_time_srt (-5) = "00:00:00,000" ∧
    format_time_srt (3725256 / 1000 + 1 / 3000)
      = format_time_srt ((⌊(3725256 / 1000 + 1 / 3000 : ℚ) * 1000⌋ : ℚ) / 1000) := by
  constructor
  · exact claim_C7_format_time.1 (-5) (by norm_num)
  · exact claim_C7_format_time.2.1 (3725256 / 1000 + 1 / 3000) (by norm_num)

/-! ## SRT-to-timed-words conversion (`convert_srt_to_timed_words`),
caption_generator.py lines 24-99. -/

/-- `parse_srt_time` (caption_generator.py lines 24-33) applied to the four
numeric components the regex yields from `HH:MM:SS,mmm`:
`h * 3600 + m * 60 + s + ms / 1000.0`. -/
def parse_srt_time (h m s ms : ℕ) : ℚ :=
  (h : ℚ) * 3600 + (m : ℚ) * 60 + (s : ℚ) + (ms : ℚ) / 1000

/-- The per-word emission loop of one SRT block (caption_generator.py lines
85-99): each word ends `time_per_word` after it starts, capped at the block
end; the (unrounded) cap value becomes the next word's start; the recorded
times are rounded to 3 decimals. -/
def blockGo (endTime tpw : ℚ) : ℚ → List String → List TimedWord
  | _, [] => []
  | cur, w :: rest =>
    let wEnd := min (cur + tpw) endTime
    ⟨w, round3 cur, round3 wEnd⟩ :: blockGo endTime tpw wEnd rest

/-- One SRT block of `convert_srt_to_timed_words` (caption_generator.py lines
66-99): blocks of non-positive duration and blocks with no words are skipped;
otherwise the duration is split evenly over the words. -/
def srtBlockWords (startTime endTime : ℚ) (words : List String) :
    List TimedWord :=
  let duration := endTime - startTime
  if duration ≤ 0 then []
  else if words.isEmpty then []
  else blockGo endTime (duration / (words.length : ℚ)) startTime words

/-- `convert_srt_to_timed_words` over all parsed blocks: concatenation of the
per-block word lists, in block order. -/
def convert_srt_to_timed_words (blocks : List (ℚ × ℚ × List String)) :
    List TimedWord :=
  blocks.foldr (fun b acc => srtBlockWords b.1 b.2.1 b.2.2 ++ acc) []

lemma blockGo_length (endTime tpw : ℚ) :
    ∀ (words : List String) (cur : ℚ),
      (blockGo endTime tpw cur words).length = words.length := by
  intro words
  induction words with
  | nil => intro cur; rfl
  | cons w rest ih => intro cur; simp [blockGo, ih]

lemma blockGo_chain (endTime tpw : ℚ) :
    ∀ (words : List String) (cur : ℚ),
      List.Chain' (fun a b : TimedWord => a.stop = b.start)
        (blockGo endTime tpw cur words) := by
  intro words
  induction words with
  | nil => intro cur; simp [blockGo]
  | cons w rest ih =>
    intro cur
    cases rest with
    | nil => simp [blockGo]
    | cons r rs =>
      rw [show blockGo endTime tpw cur (w :: r :: rs) =
        ⟨w, round3 cur, round3 (min (cur + tpw) endTime)⟩ ::
          blockGo endTime tpw (min (cur + tpw) endTime) (r :: rs) from rfl]
      rw [List.chain'_cons']
      refine ⟨?_, ih _⟩
      intro y hy
      rw [show blockGo endTime tpw (min (cur + tpw) endTime) (r :: rs) =
        ⟨r, round3 (min (cur + tpw) endTime),
          round3 (min (min (cur + tpw) endTime + tpw) endTime)⟩ ::
          blockGo endTime tpw (min (min (cur + tpw) endTime + tpw) endTime) rs
        from rfl] at hy
      simp only [List.head?_cons, Option.mem_def, Option.some.injEq] at hy
      subst hy
      rfl

lemma blockGo_stop_le (tpw : ℚ) (k : ℤ) :
    ∀ (words : List String) (cur : ℚ),
      ∀ w ∈ blockGo ((k : ℚ) / 1000) tpw cur words, w.stop ≤ (k : ℚ) / 1000 := by
  intro words
  induction words with
  | nil => intro cur w hw; simp [blockGo] at hw
  | cons x rest ih =>
    intro cur w hw
    rw [show blockGo ((k : ℚ) / 1000) tpw cur (x :: rest) =
      ⟨x, round3 cur, round3 (min (cur + tpw) ((k : ℚ) / 1000))⟩ ::
        blockGo ((k : ℚ) / 1000) tpw (min (cur + tpw) ((k : ℚ) / 1000)) rest
      from rfl] at hw
    rcases List.mem_cons.mp hw with hw | hw
    · subst hw
      exact round3_le_int_div _ k (min_le_right _ _)
    · exact ih _ w hw

/-- C10: for every accepted SRT block (parse-shaped times, end strictly after
start, non-empty word list) the emitted words uniformly partition the block's
span: one output word per input word, the first word starts at the block's
start time, each subsequent word starts exactly where the previous ends, and
every word's end is at most the block's end; blocks of non-positive duration
emit no words; and `parse_srt_time` always yields a whole number of
milliseconds. -/
theorem claim_C10_uniform_partition :
    (∀ (st en : ℚ) (words : List String), en - st ≤ 0 →
      srtBlockWords st en words = []) ∧
    (∀ (h m s ms : ℕ), parse_srt_time h m s ms
      = ((3600000 * h + 60000 * m + 1000 * s + ms : ℕ) : ℚ) / 1000) ∧
    (∀ (k1 k2 : ℤ) (words : List String),
      (k1 : ℚ) / 1000 < (k2 : ℚ) / 1000 → words ≠ [] →
      (srtBlockWords ((k1 : ℚ) / 1000) ((k2 : ℚ) / 1000) words).length
          = words.length ∧
      (srtBlockWords ((k1 : ℚ) / 1000) ((k2 : ℚ) / 1000) words).head?.map
          TimedWord.start = some ((k1 : ℚ) / 1000) ∧
      List.Chain' (fun a b : TimedWord => a.stop = b.start)
        (srtBlockWords ((k1 : ℚ) / 1000) ((k2 : ℚ) / 1000) words) ∧
      (∀ w ∈ srtBlockWords ((k1 : ℚ) / 1000) ((k2 : ℚ) / 1000) words,
        w.stop ≤ (k2 : ℚ) / 1000)) := by
  refine ⟨?_, ?_, ?_⟩
  · intro st en words h
    unfold srtBlockWords
    rw [if_pos h]
  · intro h m s ms
    unfold parse_srt_time
    push_cast
    ring
  · intro k1 k2 words hlt hne
    have hdur : ¬ ((k2 : ℚ) / 1000 - (k1 : ℚ) / 1000 ≤ 0) := by
      rw [not_le]
      linarith
    have hwe : ¬ (words.isEmpty = true) := by
      simpa using hne
    have hunf : srtBlockWords ((k1 : ℚ) / 1000) ((k2 : ℚ) / 1000) words
        = blockGo ((k2 : ℚ) / 1000)
            (((k2 : ℚ) / 1000 - (k1 : ℚ) / 1000) / (words.length : ℚ))
            ((k1 : ℚ) / 1000) words := by
      unfold srtBlockWords
      rw [if_neg hdur, if_neg hwe]
    rw [hunf]
    refine ⟨blockGo_length _ _ words _, ?_, blockGo_chain _ _ words _,
      blockGo_stop_le _ k2 words _⟩
    cases words with
    | nil => exact absurd rfl hne
    | cons w rest =>
      rw [show blockGo ((k2 : ℚ) / 1000)
          (((k2 : ℚ) / 1000 - (k1 : ℚ) / 1000) / ((w :: rest).length : ℚ))
          ((k1 : ℚ) / 1000) (w :: rest)
        = ⟨w, round3 ((k1 : ℚ) / 1000), round3 (min (((k1 : ℚ) / 1000) +
            ((k2 : ℚ) / 1000 - (k1 : ℚ) / 1000) / ((w :: rest).length : ℚ))
            ((k2 : ℚ) / 1000))⟩ ::
          blockGo ((k2 : ℚ) / 1000)
            (((k2 : ℚ) / 1000 - (k1 : ℚ) / 1000) / ((w :: rest).length : ℚ))
            (min (((k1 : ℚ) / 1000) +
              ((k2 : ℚ) / 1000 - (k1 : ℚ) / 1000) / ((w :: rest).length : ℚ))
              ((k2 : ℚ) / 1000)) rest from rfl]
      simp only [List.head?_cons, Option.map_some']
      rw [round3_int_div]

/-- Witness for C10 at the block `00:00:01,500 --> 00:00:04,000` with three
words (the module's own test fixture shape). -/
theorem claim_C10_witness :
    (srtBlockWords ((1500 : ℤ) / 1000) ((4000 : ℤ) / 1000)
      ["Bonjour", "tout", "le"]).length = 3 ∧
    (srtBlockWords ((1500 : ℤ) / 1000) ((4000 : ℤ) / 1000)
      ["Bonjour", "tout", "le"]).head?.map TimedWord.start
        = some (((1500 : ℤ) : ℚ) / 1000) := by
  have h := (claim_C10_uniform_partition.2.2) 1500 4000 ["Bonjour", "tout", "le"]
    (by norm_num) (by simp)
  exact ⟨by simpa using h.1, by simpa using h.2.1⟩

/-! ## Subtitle alignment (`create_subtitle`), audio_generator_fr.py lines
187-264 and the identical loop in voice.py lines 265-380. -/

/-- Python `str.strip()`: drop leading and trailing whitespace. -/
def pyStrip (s : String) : String :=
  ⟨((s.data.dropWhile Char.isWhitespace).reverse.dropWhile
      Char.isWhitespace).reverse⟩

/-- `any(word.endswith(p) for p in ",.!?。，、？！；：")` — the SRT
punctuation set (single characters, so `endswith` is a last-character
test). -/
def endsPunctSrt (s : String) : Bool :=
  match s.data.getLast? with
  | some c =>
    [',', '.', '!', '?', '。', '，', '、', '？', '！', '；', '：'].contains c
  | none => false

/-- One rendered subtitle item (<< `formatter(idx, start, end, text)` >>).
`bestEffort` records whether the item was produced by the imperfect-alignment
tail (source: the `logger.warning("Appending remaining script line …")`
path). -/
structure SubEntry where
  idx : ℕ
  startNs : ℚ
  stopNs : ℚ
  text : String
  bestEffort : Bool
  deriving DecidableEq, Repr

/-- The loop state of `create_subtitle`: `start_time_ns` (with the source's
`-1.0` sentinel), `processed_words`, the accumulated `current_sub_line`
(kept as its word list; only emptiness of the stripped line is ever
consumed), `script_line_idx` and `sub_index`. -/
structure AlignState where
  startTimeNs : ℚ
  processed : ℕ
  curWords : List String
  scriptIdx : ℕ
  subIndex : ℕ
  deriving DecidableEq, Repr

/-- The `while word_idx < len(subs) and script_line_idx < len(script_lines)`
loop of `create_subtitle` (audio_generator_fr.py lines 228-258).  A word is a
`(text, startNs, endNs)` triple (the SubMaker keeps `subs` and `offset` in
lockstep); word texts are the already-`unescape(...).strip()`ed tokens. -/
def alignGo (scriptLines : List String) :
    AlignState → List (String × ℚ × ℚ) → AlignState × List SubEntry
  | st, [] => (st, [])
  | st, (t, sNs, eNs) :: rest =>
    if scriptLines.length ≤ st.scriptIdx then (st, [])
    else if t = "" then alignGo scriptLines st rest
    else
      let startTimeNs := if st.startTimeNs < 0 then sNs else st.startTimeNs
      let processed := st.processed + 1
      let curWords := st.curWords ++ [t]
      let currentScriptLine := pyStrip (scriptLines.getD st.scriptIdx "")
      if (endsPunctSrt t ∧ endsPunctSrt currentScriptLine)
          ∨ 8 ≤ processed ∨ rest.isEmpty then
        let next := alignGo scriptLines
          ⟨-1, 0, [], st.scriptIdx + 1, st.subIndex + 1⟩ rest
        (next.1,
          ⟨st.subIndex + 1, startTimeNs, eNs, currentScriptLine, false⟩ :: next.2)
      else
        alignGo scriptLines
          ⟨startTimeNs, processed, curWords, st.scriptIdx, st.subIndex⟩ rest

/-- `create_subtitle`'s item list: the alignment loop followed by the
imperfect-alignment tail (audio_generator_fr.py lines 260-264 / voice.py
lines 371-380): when a non-empty unfinalized line remains and script lines
are left, one extra item is appended carrying the *next* script line and the
last word's end timestamp. -/
def create_subtitle_entries (words : List (String × ℚ × ℚ))
    (scriptLines : List String) : List SubEntry :=
  let r := alignGo scriptLines ⟨-1, 0, [], 0, 0⟩ words
  let stF := r.1
  if stF.curWords ≠ [] ∧ stF.scriptIdx < scriptLines.length then
    r.2 ++ [⟨stF.subIndex + 1, stF.startTimeNs,
      ((words.getLast?).map (fun p => p.2.2)).getD 0,
      pyStrip (scriptLines.getD stF.scriptIdx ""), true⟩]
  else r.2

/-- The alignment loop consumes script lines sequentially: the emitted items
carry the stripped script lines starting at the state's `scriptIdx`, one per
item; the final `scriptIdx` advances by exactly the number of items; no loop
item is best-effort. -/
lemma alignGo_spec (scriptLines : List String) :
    ∀ (words : List (String × ℚ × ℚ)) (st : AlignState),
      (alignGo scriptLines st words).2.map SubEntry.text
        = ((scriptLines.drop st.scriptIdx).take
            (alignGo scriptLines st words).2.length).map pyStrip ∧
      (alignGo scriptLines st words).1.scriptIdx
        = st.scriptIdx + (alignGo scriptLines st words).2.length ∧
      (∀ e ∈ (alignGo scriptLines st words).2, e.bestEffort = false) := by
  intro words
  induction words with
  | nil =>
    intro st
    refine ⟨rfl, rfl, ?_⟩
    intro e he
    simp [alignGo] at he
  | cons w rest ih =>
    intro st
    obtain ⟨t, sNs, eNs⟩ := w
    by_cases hstop : scriptLines.length ≤ st.scriptIdx
    · simp only [alignGo, if_pos hstop]
      exact ⟨rfl, rfl, by intro e he; simp at he⟩
    by_cases hempty : t = ""
    · simp only [alignGo, if_neg hstop, if_pos hempty]
      exact ih st
    simp only [alignGo, if_neg hstop, if_neg hempty]
    generalize (if st.startTimeNs < 0 then sNs else st.startTimeNs) = s0
    split_ifs with hfin
    · -- finalize: one item consuming script line `st.scriptIdx`
      have hlt : st.scriptIdx < scriptLines.length := lt_of_not_le hstop
      obtain ⟨ihtext, ihidx, ihbe⟩ :=
        ih ⟨-1, 0, [], st.scriptIdx + 1, st.subIndex + 1⟩
      refine ⟨?_, ?_, ?_⟩
      · simp only [List.map_cons, ihtext]
        rw [List.drop_eq_getElem_cons hlt]
        simp only [List.length_cons, List.take_succ_cons, List.map_cons]
        congr 1
        rw [List.getD_eq_getElem?_getD, List.getElem?_eq_getElem hlt]
        rfl
      · simp only [List.length_cons, ihidx]
        omega
      · intro e he
        rcases List.mem_cons.mp he with rfl | he
        · rfl
        · exact ihbe e he
    · exact ih _

lemma map_text_append_tail (out : List SubEntry) (e : SubEntry)
    (lines : List String)
    (hlt : out.length < lines.length)
    (hout : out.map SubEntry.text = (lines.take out.length).map pyStrip)
    (he : e.text = pyStrip (lines.getD out.length "")) :
    (out ++ [e]).map SubEntry.text
      = (lines.take (out ++ [e]).length).map pyStrip := by
  simp only [List.map_append, List.length_append, List.map_cons, List.map_nil,
    List.length_cons, List.length_nil, Nat.zero_add]
  rw [List.take_succ, List.map_append, hout]
  congr 1
  rw [List.getElem?_eq_getElem hlt]
  simp only [Option.toList_some, List.map_cons, List.map_nil]
  rw [he, List.getD_eq_getElem?_getD, List.getElem?_eq_getElem hlt]
  rfl

/-- C9, counterexample.  Reference segments `["x.", "y.", "z."]` against a
two-word timed stream: the loop finalizes on the last word consuming only
`"x."`, nothing is appended, and segments `"y."`, `"z."` are silently
dropped — not «appended as one final subtitle block».  With the stream
`[("a",0,10), ("",10,20)]` (trailing empty token) the tail does fire, yet it
appends only the single next segment `"x."` — again not all remaining
segments. -/
theorem claim_C9_counterexample :
    create_subtitle_entries [("a", 0, 10), ("b", 10, 20)] ["x.", "y.", "z."]
      = [⟨1, 0, 20, "x.", false⟩] ∧
    create_subtitle_entries [("a", 0, 10), ("", 10, 20)] ["x.", "y.", "z."]
      = [⟨1, 0, 20, "x.", true⟩] := by
  constructor
  · norm_num [create_subtitle_entries, alignGo,
      show pyStrip "x." = "x." from by decide,
      show endsPunctSrt "a" = false from by decide,
      show endsPunctSrt "b" = false from by decide,
      eq_false (show ¬("a" = "") from by decide),
      eq_false (show ¬("b" = "") from by decide)]
  · norm_num [create_subtitle_entries, alignGo, List.getLast?,
      show pyStrip "x." = "x." from by decide,
      show endsPunctSrt "a" = false from by decide,
      eq_false (show ¬("a" = "") from by decide)]

/-- C9 (amended): subtitle items consume reference segments strictly in
order — the item texts are the stripped prefix of the segment list, one
segment per item; at most the final item is a best-effort (imperfect
alignment) item, appended only when the word stream ran out with a non-empty
unfinalized line and unconsumed segments left, and it carries the *single*
next unconsumed segment with end time equal to the last timed word's end
timestamp; all other remaining segments are dropped. -/
theorem claim_C9_tail_alignment (words : List (String × ℚ × ℚ))
    (lines : List String) :
    (create_subtitle_entries words lines).map SubEntry.text
      = (lines.take (create_subtitle_entries words lines).length).map pyStrip ∧
    (∀ e ∈ (create_subtitle_entries words lines).dropLast,
      e.bestEffort = false) ∧
    (∀ e ∈ create_subtitle_entries words lines, e.bestEffort = true →
      e.stopNs = ((words.getLast?).map (fun p => p.2.2)).getD 0) := by
  obtain ⟨htext, hidx, hbe⟩ := alignGo_spec lines words ⟨-1, 0, [], 0, 0⟩
  have htext' : (alignGo lines ⟨-1, 0, [], 0, 0⟩ words).2.map SubEntry.text
      = (lines.take (alignGo lines ⟨-1, 0, [], 0, 0⟩ words).2.length).map
          pyStrip := by
    rw [htext]
    rfl
  have hidx' : (alignGo lines ⟨-1, 0, [], 0, 0⟩ words).1.scriptIdx
      = (alignGo lines ⟨-1, 0, [], 0, 0⟩ words).2.length := by simpa using hidx
  simp only [create_subtitle_entries]
  split_ifs with htail
  · -- best-effort tail appended
    obtain ⟨-, hlt⟩ := htail
    rw [hidx'] at hlt
    refine ⟨?_, ?_, ?_⟩
    · exact map_text_append_tail _ _ lines hlt htext' (by rw [hidx'])
    · rw [List.dropLast_concat]
      exact hbe
    · intro e he hbe'
      rcases List.mem_append.mp he with he | he
      · exact absurd hbe' (by rw [hbe e he]; simp)
      · rcases List.mem_singleton.mp he with rfl
        rfl
  · exact ⟨htext', fun e he => hbe e (List.mem_of_mem_dropLast he),
      fun e he hbe' => absurd hbe' (by rw [hbe e he]; simp)⟩

/-- Witness for C9's amended theorem at the trailing-empty-token stream where
the best-effort tail fires. -/
theorem claim_C9_witness :
    (create_subtitle_entries [("a", 0, 10), ("", 10, 20)]
        ["x.", "y.", "z."]).map SubEntry.text
      = (["x.", "y.", "z."].take
          (create_subtitle_entries [("a", 0, 10), ("", 10, 20)]
            ["x.", "y.", "z."]).length).map pyStrip ∧
    (∀ e ∈ create_subtitle_entries [("a", 0, 10), ("", 10, 20)]
        ["x.", "y.", "z."], e.bestEffort = true →
      e.stopNs = (([("a", (0:ℚ), (10:ℚ)), ("", 10, 20)].getLast?).map
        (fun p => p.2.2)).getD 0) :=
  ⟨(claim_C9_tail_alignment [("a", 0, 10), ("", 10, 20)] ["x.", "y.", "z."]).1,
   (claim_C9_tail_alignment [("a", 0, 10), ("", 10, 20)] ["x.", "y.", "z."]).2.2⟩

/-! ## Scene media resolution (`compose_final_video`),
video_composer.py lines 146-344.

The per-scene media loading is driven by an `Env` of external facts: whether
the hook / product assets exist and load (with which durations), which AI
image files the images directory holds, and which stock clips were downloaded
per scene.  `random.choice` is modelled by an arbitrary index oracle `pick`
reduced mod the pool size.  Durations of moviepy clips follow the library's
contract: `subclip(t0, t1)` lasts `t1 - t0`, `loop(duration=d)` and
`set_duration(d)` last `d`. -/

/-- A script scene as read with `scene.get(...)`: each field may be absent. -/
structure Scene where
  scene_number : Option ℤ
  visual_type : Option String
  duration_seconds : Option ℚ
  deriving DecidableEq, Repr

/-- Python truthiness of the `scene_number` value (`None` and `0` are falsy). -/
def truthyNum : Option ℤ → Bool
  | none => false
  | some n => if n = 0 then false else true

/-- Python truthiness of the `visual_type` value (`None` and `""` are falsy). -/
def truthyStr : Option String → Bool
  | none => false
  | some s => if s = "" then false else true

/-- Python truthiness of the `duration_seconds` value (`None`, `0`, `0.0`
falsy). -/
def truthyQ : Option ℚ → Bool
  | none => false
  | some q => if q = 0 then false else true

/-- `all([scene_number, visual_type, duration_seconds])`
(video_composer.py line 187): scenes failing it are skipped. -/
def sceneDataOk (s : Scene) : Bool :=
  truthyNum s.scene_number && truthyStr s.visual_type
    && truthyQ s.duration_seconds

/-- What a processed scene contributed to `video_clips`. -/
inductive ClipKind
  | real | placeholder | errorClip
  deriving DecidableEq, Repr

/-- One entry of `video_clips`.  `aiSrc` records which AI-pool image the scene
consumed (`media_path_for_log` in the `ai_image` branch); `none` elsewhere. -/
structure Clip where
  duration : ℚ
  kind : ClipKind
  aiSrc : Option String
  deriving DecidableEq, Repr

/-- Python string `<` (lexicographic by code point; `sorted(Path.glob(...))`
compares the file names this way within one directory). -/
def charsLt : List Char → List Char → Bool
  | [], [] => false
  | [], _ :: _ => true
  | _ :: _, [] => false
  | a :: as, b :: bs =>
    if a.toNat < b.toNat then true
    else if b.toNat < a.toNat then false
    else charsLt as bs

/-- `a < b` for Python strings. -/
def strLt (a b : String) : Bool := charsLt a.data b.data

/-- Insertion into an ascending list (used to model Python `sorted`). -/
def sortedInsertBy (lt : α → α → Bool) (x : α) : List α → List α
  | [] => [x]
  | y :: ys => if lt y x then y :: sortedInsertBy lt x ys else x :: y :: ys

/-- `sorted(...)` under the strict order `lt`. -/
def sortBy (lt : α → α → Bool) : List α → List α
  | [] => []
  | x :: xs => sortedInsertBy lt x (sortBy lt xs)

/-- `sorted(ai_images_dir.glob("*.jpeg"))` (video_composer.py line 218):
the directory's jpeg names in lexicographic order. -/
def sortStrings (l : List String) : List String := sortBy strLt l

/-- moviepy contract: `clip.subclip(t0, t1)` has duration `t1 - t0`. -/
def subclipDur (t0 t1 : ℚ) : ℚ := t1 - t0

/-- moviepy contract: `clip.loop(duration=d)` has duration `d`. -/
def loopDur (target : ℚ) : ℚ := target

/-- moviepy contract: `clip.set_duration(d)` has duration `d`. -/
def setDurationTo (_clipDur target : ℚ) : ℚ := target

/-- The shared trim-or-loop decision of the `stock_video` and `product_video`
branches (video_composer.py lines 233-237 and 255-259):
`subclip(0, d)` when the asset is long enough, else `loop(duration=d)`. -/
def trimOrLoopDur (assetDur d : ℚ) : ℚ :=
  if assetDur ≥ d then subclipDur 0 d else loopDur d

/-- External facts for one composition run.  `hook`/`productVideo`:
`some dur` when the path is a readable video of that duration (load failures
and missing paths both land in the source's placeholder fallback);
`stock n`: the clips downloaded for scene `n`, `none` marking a file
`VideoFileClip` raises on (that exception reaches the outer per-scene
handler); `pick`: the `random.choice` oracle. -/
structure Env where
  hook : Option ℚ
  aiImageFiles : List String
  stock : ℤ → List (Option ℚ)
  pick : ℤ → ℕ
  productImage : Bool
  productVideo : Option ℚ

/-- Outcome of the media-loading `if/elif` chain for one scene. -/
inductive RawLoad
  | loaded (rawDur : ℚ) (aiSrc : Option String)
  | noMedia
  | failed
  deriving DecidableEq, Repr

/-- The `visual_type` dispatch (video_composer.py lines 197-269), returning
the raw clip (before the forced `set_duration`) and the updated
`ai_image_index`. -/
def loadScene (env : Env) (aiIdx : ℕ) (n : ℤ) (vt : String) (d : ℚ) :
    RawLoad × ℕ :=
  if vt = "hook" then
    match env.hook with
    | some hd => (.loaded (subclipDur 0 (min (min d hd) 4)) none, aiIdx)
    | none => (.noMedia, aiIdx)
  else if vt = "ai_image" then
    let pool := sortStrings env.aiImageFiles
    if aiIdx < pool.length then
      (.loaded d (some (pool.getD aiIdx "")), aiIdx + 1)
    else (.noMedia, aiIdx)
  else if vt = "stock_video" then
    let paths := env.stock n
    if paths.isEmpty then (.noMedia, aiIdx)
    else
      match paths.getD (env.pick n % paths.length) none with
      | some ad => (.loaded (trimOrLoopDur ad d) none, aiIdx)
      | none => (.failed, aiIdx)
  else if vt = "product_shot" then
    if env.productImage then (.loaded d none, aiIdx) else (.noMedia, aiIdx)
  else if vt = "product_video" then
    match env.productVideo with
    | some ad => (.loaded (trimOrLoopDur ad d) none, aiIdx)
    | none => (.noMedia, aiIdx)
  else (.noMedia, aiIdx)

/-- One iteration of the scene loop (video_composer.py lines 182-302):
skip on falsy data; otherwise load media, fall back to the black placeholder
(`scene_clip_raw is None`), convert a load exception to the red error clip,
and force the clip to the scene's `duration_seconds` (line 278; placeholder
and error clips are created with that duration directly). -/
def sceneStep (env : Env) (aiIdx : ℕ) (scene : Scene) : ℕ × Option Clip :=
  if sceneDataOk scene then
    let n := scene.scene_number.getD 0
    let vt := scene.visual_type.getD ""
    let d := scene.duration_seconds.getD 0
    match loadScene env aiIdx n vt d with
    | (.loaded rawDur src, aiIdx2) =>
      (aiIdx2, some ⟨setDurationTo rawDur d, .real, src⟩)
    | (.noMedia, aiIdx2) => (aiIdx2, some ⟨d, .placeholder, none⟩)
    | (.failed, aiIdx2) => (aiIdx2, some ⟨d, .errorClip, none⟩)
  else (aiIdx, none)

/-- The scene loop: clips in iteration order, paired with their scenes. -/
def composeAux (env : Env) : ℕ → List Scene → List (Scene × Clip)
  | _, [] => []
  | aiIdx, s :: rest =>
    match sceneStep env aiIdx s with
    | (aiIdx2, none) => composeAux env aiIdx2 rest
    | (aiIdx2, some c) => (s, c) :: composeAux env aiIdx2 rest

/-- The `video_clips` list built by `compose_final_video` (with the producing
scene kept alongside each clip), starting from `ai_image_index = 0`. -/
def composeClips (env : Env) (scenes : List Scene) : List (Scene × Clip) :=
  composeAux env 0 scenes

lemma sceneStep_not_ok (env : Env) (i : ℕ) (s : Scene)
    (h : sceneDataOk s = false) : sceneStep env i s = (i, none) := by
  simp [sceneStep, h]

lemma sceneStep_ok (env : Env) (i : ℕ) (s : Scene)
    (h : sceneDataOk s = true) :
    ∃ c : Clip, (sceneStep env i s).2 = some c ∧
      c.duration = s.duration_seconds.getD 0 := by
  simp only [sceneStep]
  rw [if_pos h]
  rcases hl : loadScene env i (s.scene_number.getD 0) (s.visual_type.getD "")
    (s.duration_seconds.getD 0) with ⟨res, i2⟩
  cases res with
  | loaded rawDur src => exact ⟨_, rfl, rfl⟩
  | noMedia => exact ⟨_, rfl, rfl⟩
  | failed => exact ⟨_, rfl, rfl⟩

lemma composeAux_all_ok (env : Env) :
    ∀ (scenes : List Scene) (i : ℕ),
      (∀ s ∈ scenes, sceneDataOk s = true) →
      (composeAux env i scenes).map Prod.fst = scenes ∧
      (composeAux env i scenes).map (fun p => p.2.duration)
        = scenes.map (fun s => s.duration_seconds.getD 0) ∧
      (∀ p ∈ composeAux env i scenes,
        p.2.duration = p.1.duration_seconds.getD 0) := by
  intro scenes
  induction scenes with
  | nil => intro i _; exact ⟨rfl, rfl, by intro p hp; simp [composeAux] at hp⟩
  | cons s rest ih =>
    intro i h
    obtain ⟨c, hc, hcd⟩ := sceneStep_ok env i s (h s (List.mem_cons_self _ _))
    rcases hstep : sceneStep env i s with ⟨i2, oc⟩
    rw [hstep] at hc
    simp only at hc
    subst hc
    obtain ⟨ih1, ih2, ih3⟩ := ih i2 (fun x hx => h x (List.mem_cons_of_mem _ hx))
    refine ⟨?_, ?_, ?_⟩
    · simp only [composeAux, hstep, List.map_cons, ih1]
    · simp only [composeAux, hstep, List.map_cons, ih2, hcd]
    · intro p hp
      simp only [composeAux, hstep] at hp
      rcases List.mem_cons.mp hp with rfl | hp
      · exact hcd
      · exact ih3 p hp

lemma composeAux_fst_filter (env : Env) :
    ∀ (scenes : List Scene) (i : ℕ),
      (composeAux env i scenes).map Prod.fst = scenes.filter sceneDataOk := by
  intro scenes
  induction scenes with
  | nil => intro i; rfl
  | cons s rest ih =>
    intro i
    rcases hok : sceneDataOk s with _ | _
    · rw [show composeAux env i (s :: rest)
          = composeAux env i rest from by
        simp only [composeAux, sceneStep_not_ok env i s hok]]
      rw [ih i, List.filter_cons_of_neg (by simp [hok])]
    · obtain ⟨c, hc, -⟩ := sceneStep_ok env i s hok
      rcases hstep : sceneStep env i s with ⟨i2, oc⟩
      rw [hstep] at hc
      simp only at hc
      subst hc
      simp only [composeAux, hstep, List.map_cons, ih i2]
      rw [List.filter_cons_of_pos hok]

/-- C1, counterexample.  The scene `{scene_number: 0, visual_type: "hook",
duration_seconds: 5}` *has* all three fields and positive duration, yet
`all([...])` treats the present-but-zero `scene_number` as missing data and
the scene is skipped: no clip at all is produced (so the timeline total is
`0`, not `5`). -/
theorem claim_C1_counterexample :
    (Scene.mk (some 0) (some "hook") (some 5)).scene_number.isSome = true ∧
    (Scene.mk (some 0) (some "hook") (some 5)).visual_type.isSome = true ∧
    (0 : ℚ) < (Scene.mk (some 0) (some "hook")
      (some 5)).duration_seconds.getD 0 ∧
    composeClips ⟨none, [], fun _ => [], fun _ => 0, false, none⟩
      [Scene.mk (some 0) (some "hook") (some 5)] = [] := by
  refine ⟨rfl, rfl, by norm_num, ?_⟩
  rfl

/-- C1 (amended): for every scene list in which every scene has a *nonzero*
`scene_number`, a *non-empty* `visual_type`, and `duration_seconds > 0`
(Python truthiness, as tested by the source's `all([...])`),
`compose_final_video` produces exactly one clip per scene — a real media
clip, a black placeholder, or a red error clip, each forced to exactly that
scene's declared `duration_seconds` — no per-scene error escapes, and the
total timeline duration equals the sum of the declared durations, regardless
of asset availability. -/
theorem claim_C1_total_duration (env : Env) (scenes : List Scene)
    (h : ∀ s ∈ scenes, truthyNum s.scene_number = true ∧
      truthyStr s.visual_type = true ∧ 0 < s.duration_seconds.getD 0) :
    (composeClips env scenes).length = scenes.length ∧
    (composeClips env scenes).map Prod.fst = scenes ∧
    (∀ p ∈ composeClips env scenes,
      p.2.duration = p.1.duration_seconds.getD 0) ∧
    ((composeClips env scenes).map (fun p => p.2.duration)).sum
      = (scenes.map (fun s => s.duration_seconds.getD 0)).sum := by
  have hok : ∀ s ∈ scenes, sceneDataOk s = true := by
    intro s hs
    obtain ⟨hn, hv, hd⟩ := h s hs
    unfold sceneDataOk
    rw [hn, hv]
    rcases hq : s.duration_seconds with _ | q
    · rw [hq] at hd; simp at hd
    · rw [hq] at hd
      simp only [Option.getD_some] at hd
      simp [truthyQ, ne_of_gt hd]
  obtain ⟨h1, h2, h3⟩ := composeAux_all_ok env scenes 0 hok
  refine ⟨?_, h1, h3, by simp only [composeClips]; rw [h2]⟩
  have := congrArg List.length h1
  simpa using this

/-- Witness for C1's amended theorem: two scenes with no assets available at
all still produce one (placeholder) clip each of the declared durations. -/
theorem claim_C1_witness :
    (composeClips ⟨none, [], fun _ => [], fun _ => 0, false, none⟩
      [Scene.mk (some 1) (some "hook") (some 3),
       Scene.mk (some 2) (some "stock_video") (some 4)]).length
      = [Scene.mk (some 1) (some "hook") (some 3),
         Scene.mk (some 2) (some "stock_video") (some 4)].length ∧
    ((composeClips ⟨none, [], fun _ => [], fun _ => 0, false, none⟩
      [Scene.mk (some 1) (some "hook") (some 3),
       Scene.mk (some 2) (some "stock_video") (some 4)]).map
        (fun p => p.2.duration)).sum
      = ([Scene.mk (some 1) (some "hook") (some 3),
          Scene.mk (some 2) (some "stock_video") (some 4)].map
          (fun s => s.duration_seconds.getD 0)).sum := by
  have h := claim_C1_total_duration
    ⟨none, [], fun _ => [], fun _ => 0, false, none⟩
    [Scene.mk (some 1) (some "hook") (some 3),
     Scene.mk (some 2) (some "stock_video") (some 4)]
    (by
      intro s hs
      fin_cases hs <;>
        exact ⟨rfl, rfl, by norm_num⟩)
  exact ⟨h.1, h.2.2.2⟩

lemma pairwise_fst_of_map_pairwise {R : Scene → Scene → Prop} :
    ∀ (l : List (Scene × Clip)), List.Pairwise R (l.map Prod.fst) →
      List.Pairwise (fun p q => R p.1 q.1) l := by
  intro l
  induction l with
  | nil => intro _; exact List.Pairwise.nil
  | cons p rest ih =>
    intro h
    rw [List.map_cons, List.pairwise_cons] at h
    exact List.Pairwise.cons
      (fun q hq => h.1 q.1 (List.mem_map_of_mem _ hq)) (ih h.2)

/-- C6, counterexample.  With the scenes listed as `[scene 2, scene 1]`,
`compose_final_video` iterates the input list directly (`for scene in
scenes`), so the clips come out in scene-number order `[2, 1]` — not the
claimed ascending order. -/
theorem claim_C6_counterexample :
    ((composeClips ⟨none, [], fun _ => [], fun _ => 0, false, none⟩
      [Scene.mk (some 2) (some "product_shot") (some 3),
       Scene.mk (some 1) (some "product_shot") (some 2)]).map
        (fun p => p.1.scene_number.getD 0)) = [2, 1] ∧
    ¬ List.Pairwise (fun a b : ℤ => a ≤ b)
      ((composeClips ⟨none, [], fun _ => [], fun _ => 0, false, none⟩
        [Scene.mk (some 2) (some "product_shot") (some 3),
         Scene.mk (some 1) (some "product_shot") (some 2)]).map
          (fun p => p.1.scene_number.getD 0)) := by
  have heval : ((composeClips ⟨none, [], fun _ => [], fun _ => 0, false, none⟩
      [Scene.mk (some 2) (some "product_shot") (some 3),
       Scene.mk (some 1) (some "product_shot") (some 2)]).map
        (fun p => p.1.scene_number.getD 0)) = [2, 1] := by
    norm_num [composeClips, composeAux, sceneStep, sceneDataOk, truthyNum,
      truthyStr, truthyQ, loadScene,
      eq_false (show ¬("product_shot" = "") from by decide),
      eq_false (show ¬("product_shot" = "hook") from by decide),
      eq_false (show ¬("product_shot" = "ai_image") from by decide),
      eq_false (show ¬("product_shot" = "stock_video") from by decide)]
  refine ⟨heval, ?_⟩
  rw [heval]
  intro hp
  have h21 := (List.pairwise_cons.mp hp).1 1 (List.mem_cons_self _ _)
  omega

/-- C6 (amended): `compose_final_video` processes and concatenates scenes in
*input list order* (the processed scenes are exactly the input scenes passing
the data check, in order); the concatenation is in ascending `scene_number`
order exactly when the input list is so ordered. -/
theorem claim_C6_processing_order (env : Env) (scenes : List Scene) :
    (composeClips env scenes).map Prod.fst = scenes.filter sceneDataOk ∧
    (List.Pairwise (fun a b : Scene =>
        a.scene_number.getD 0 ≤ b.scene_number.getD 0) scenes →
      List.Pairwise (fun p q : Scene × Clip =>
        p.1.scene_number.getD 0 ≤ q.1.scene_number.getD 0)
        (composeClips env scenes)) := by
  have hf := composeAux_fst_filter env scenes 0
  refine ⟨hf, ?_⟩
  intro hp
  have hfil : List.Pairwise (fun a b : Scene =>
      a.scene_number.getD 0 ≤ b.scene_number.getD 0)
      (scenes.filter sceneDataOk) := hp.filter _
  rw [← hf] at hfil
  exact pairwise_fst_of_map_pairwise _ hfil

/-- Witness for C6's amended theorem: an ascending two-scene list stays
ascending in the output. -/
theorem claim_C6_witness :
    List.Pairwise (fun p q : Scene × Clip =>
      p.1.scene_number.getD 0 ≤ q.1.scene_number.getD 0)
      (composeClips ⟨none, [], fun _ => [], fun _ => 0, false, none⟩
        [Scene.mk (some 1) (some "product_shot") (some 3),
         Scene.mk (some 2) (some "product_shot") (some 2)]) :=
  (claim_C6_processing_order
    ⟨none, [], fun _ => [], fun _ => 0, false, none⟩
    [Scene.mk (some 1) (some "product_shot") (some 3),
     Scene.mk (some 2) (some "product_shot") (some 2)]).2
    (by
      apply List.Pairwise.cons
      · intro b hb
        rw [List.mem_singleton] at hb
        subst hb
        norm_num
      · simp)

/-- C4: the stock-video (and product-video) trim-or-loop always fills exactly
`duration_seconds`: an asset shorter than the scene is looped
(`loop(duration=d)`), never truncated; an asset at least as long is trimmed
(`subclip(0, d)`); in both cases the resolved duration is exactly `d` — in
particular an 8 s scene filled from a 5 s asset yields exactly 8 s.  The
`sceneStep` conjuncts tie this to the resolver: a `stock_video` scene whose
picked asset loads, and a `product_video` scene with an available file,
each yield a real clip of exactly the declared duration. -/
theorem claim_C4_trim_or_loop :
    (∀ ad d : ℚ, ad < d → trimOrLoopDur ad d = loopDur d) ∧
    (∀ ad d : ℚ, d ≤ ad → trimOrLoopDur ad d = subclipDur 0 d) ∧
    (∀ ad d : ℚ, trimOrLoopDur ad d = d) ∧
    trimOrLoopDur 5 8 = 8 ∧
    (∀ (env : Env) (i : ℕ) (s : Scene) (ad : ℚ),
      sceneDataOk s = true →
      s.visual_type = some "stock_video" →
      ¬ (env.stock (s.scene_number.getD 0)).isEmpty = true →
      (env.stock (s.scene_number.getD 0)).getD
        (env.pick (s.scene_number.getD 0)
          % (env.stock (s.scene_number.getD 0)).length) none = some ad →
      (sceneStep env i s).2
        = some ⟨s.duration_seconds.getD 0, ClipKind.real, none⟩) ∧
    (∀ (env : Env) (i : ℕ) (s : Scene) (ad : ℚ),
      sceneDataOk s = true →
      s.visual_type = some "product_video" →
      env.productVideo = some ad →
      (sceneStep env i s).2
        = some ⟨s.duration_seconds.getD 0, ClipKind.real, none⟩) := by
  have htol : ∀ ad d : ℚ, trimOrLoopDur ad d = d := by
    intro ad d
    unfold trimOrLoopDur subclipDur loopDur
    split_ifs <;> ring
  refine ⟨?_, ?_, htol, htol 5 8, ?_, ?_⟩
  · intro ad d h
    unfold trimOrLoopDur
    rw [if_neg (not_le.mpr h)]
  · intro ad d h
    unfold trimOrLoopDur
    rw [if_pos h]
  · intro env i s ad hok hvt hne hpick
    simp only [sceneStep]
    rw [if_pos hok]
    have hv : s.visual_type.getD "" = "stock_video" := by rw [hvt]; rfl
    rw [hv]
    simp only [loadScene, hpick,
      eq_false (show ¬("stock_video" = "hook") from by decide),
      eq_false (show ¬("stock_video" = "ai_image") from by decide),
      eq_false hne, eq_self_iff_true, if_true, if_false, setDurationTo]
  · intro env i s ad hok hvt hpv
    simp only [sceneStep]
    rw [if_pos hok]
    have hv : s.visual_type.getD "" = "product_video" := by rw [hvt]; rfl
    rw [hv]
    simp only [loadScene, hpv,
      eq_false (show ¬("product_video" = "hook") from by decide),
      eq_false (show ¬("product_video" = "ai_image") from by decide),
      eq_false (show ¬("product_video" = "stock_video") from by decide),
      eq_false (show ¬("product_video" = "product_shot") from by decide),
      eq_self_iff_true, if_true, if_false, setDurationTo]

/-- Witness for C4: a `stock_video` scene of 8 s with a single 5 s asset
resolves to a real clip of exactly 8 s. -/
theorem claim_C4_witness :
    trimOrLoopDur 5 8 = loopDur 8 ∧
    (sceneStep ⟨none, [], fun _ => [some 5], fun _ => 0, false, none⟩ 0
      (Scene.mk (some 1) (some "stock_video") (some 8))).2
      = some ⟨(Scene.mk (some 1) (some "stock_video")
          (some 8)).duration_seconds.getD 0, ClipKind.real, none⟩ := by
  constructor
  · exact claim_C4_trim_or_loop.1 5 8 (by norm_num)
  · exact claim_C4_trim_or_loop.2.2.2.2.1
      ⟨none, [], fun _ => [some 5], fun _ => 0, false, none⟩ 0
      (Scene.mk (some 1) (some "stock_video") (some 8)) 5
      (by norm_num [sceneDataOk, truthyNum, truthyStr, truthyQ,
        eq_false (show ¬("stock_video" = "") from by decide)]) rfl
      (by simp) rfl

/-- A scene the `ai_image` branch handles. -/
def isAiScene (s : Scene) : Bool := s.visual_type == some "ai_image"

/-- Digits of a decimal numeral to a number. -/
def digitsToNat (cs : List Char) : ℕ :=
  cs.foldl (fun acc c => 10 * acc + (c.toNat - 48)) 0

/-- The numeric value of a file name's leading digit run (`"10.jpeg" ↦ 10`). -/
def numericStem (s : String) : ℕ := digitsToNat (s.data.takeWhile Char.isDigit)

/-- Modelled from the spec: «pool order is the asset's numeric filename
order» — the pool sorted by the numeric value of the file-name stem.  This is
the claim's reading of the pool order, for comparison against the source's
lexicographic `sorted(...)`. -/
def specNumericPool (l : List String) : List String :=
  sortBy (fun a b => decide (numericStem a < numericStem b)) l

lemma sceneStep_ai_hit (env : Env) (i : ℕ) (s : Scene)
    (hok : sceneDataOk s = true) (hvt : s.visual_type = some "ai_image")
    (hlt : i < (sortStrings env.aiImageFiles).length) :
    sceneStep env i s = (i + 1,
      some ⟨s.duration_seconds.getD 0, ClipKind.real,
        some ((sortStrings env.aiImageFiles).getD i "")⟩) := by
  simp only [sceneStep]
  rw [if_pos hok]
  have hv : s.visual_type.getD "" = "ai_image" := by rw [hvt]; rfl
  rw [hv]
  simp only [loadScene,
    eq_false (show ¬("ai_image" = "hook") from by decide),
    eq_self_iff_true, if_true, if_false, setDurationTo]
  rw [if_pos hlt]

lemma sceneStep_ai_miss (env : Env) (i : ℕ) (s : Scene)
    (hok : sceneDataOk s = true) (hvt : s.visual_type = some "ai_image")
    (hge : ¬ i < (sortStrings env.aiImageFiles).length) :
    sceneStep env i s
      = (i, some ⟨s.duration_seconds.getD 0, ClipKind.placeholder, none⟩) := by
  simp only [sceneStep]
  rw [if_pos hok]
  have hv : s.visual_type.getD "" = "ai_image" := by rw [hvt]; rfl
  rw [hv]
  simp only [loadScene,
    eq_false (show ¬("ai_image" = "hook") from by decide),
    eq_self_iff_true, if_true, if_false]
  rw [if_neg hge]

lemma loadScene_snd_nonai (env : Env) (i : ℕ) (n : ℤ) (vt : String) (d : ℚ)
    (hvt : vt ≠ "ai_image") : (loadScene env i n vt d).2 = i := by
  simp only [loadScene]
  split_ifs <;>
    first
      | rfl
      | exact absurd (by assumption) hvt
      | (rcases env.hook with _ | hd <;> rfl)
      | (rcases (env.stock n).getD (env.pick n % (env.stock n).length) none
          with _ | ad <;> rfl)
      | (rcases env.productVideo with _ | pv <;> rfl)

lemma sceneStep_fst_nonai (env : Env) (i : ℕ) (s : Scene)
    (hok : sceneDataOk s = true)
    (hv : s.visual_type.getD "" ≠ "ai_image") :
    (sceneStep env i s).1 = i := by
  simp only [sceneStep]
  rw [if_pos hok]
  have h2 := loadScene_snd_nonai env i (s.scene_number.getD 0)
    (s.visual_type.getD "") (s.duration_seconds.getD 0) hv
  rcases hl : loadScene env i (s.scene_number.getD 0) (s.visual_type.getD "")
    (s.duration_seconds.getD 0) with ⟨res, i2⟩
  rw [hl] at h2
  simp only at h2
  subst h2
  cases res <;> rfl

/-- The AI-pool consumption invariant: starting at pool index `i`, the
`ai_image` scenes (in scene order) receive the pool entries `i, i+1, …` in
lexicographic pool order until the pool runs out, then placeholders. -/
lemma composeAux_ai_info (env : Env) :
    ∀ (scenes : List Scene) (i : ℕ),
      (∀ s ∈ scenes, sceneDataOk s = true) →
      ((composeAux env i scenes).filter (fun p => isAiScene p.1)).map
          (fun p => (p.2.aiSrc, p.2.kind))
        = (((sortStrings env.aiImageFiles).drop i).take
            (scenes.countP isAiScene)).map (fun f => (some f, ClipKind.real))
          ++ List.replicate
              (scenes.countP isAiScene
                - ((sortStrings env.aiImageFiles).length - i))
              ((none : Option String), ClipKind.placeholder) := by
  intro scenes
  induction scenes with
  | nil => intro i _; simp [composeAux]
  | cons s rest ih =>
    intro i h
    have hok := h s (List.mem_cons_self _ _)
    have hrest := fun x hx => h x (List.mem_cons_of_mem _ hx)
    by_cases hai : isAiScene s = true
    · have hvt : s.visual_type = some "ai_image" := by
        simpa [isAiScene] using hai
      have hcnt : (s :: rest).countP isAiScene
          = rest.countP isAiScene + 1 := by
        rw [List.countP_cons]
        simp [hai]
      by_cases hlt : i < (sortStrings env.aiImageFiles).length
      · rw [show composeAux env i (s :: rest)
            = (s, ⟨s.duration_seconds.getD 0, ClipKind.real,
                some ((sortStrings env.aiImageFiles).getD i "")⟩)
              :: composeAux env (i + 1) rest from by
          simp only [composeAux, sceneStep_ai_hit env i s hok hvt hlt]]
        rw [List.filter_cons_of_pos (by simpa using hai), List.map_cons]
        rw [ih (i + 1) hrest, hcnt]
        rw [List.drop_eq_getElem_cons hlt, List.take_succ_cons, List.map_cons]
        rw [show rest.countP isAiScene + 1
              - ((sortStrings env.aiImageFiles).length - i)
            = rest.countP isAiScene
              - ((sortStrings env.aiImageFiles).length - (i + 1)) from by
          omega]
        rw [List.cons_append]
        congr 3
        rw [List.getD_eq_getElem?_getD, List.getElem?_eq_getElem hlt]
        rfl
      · rw [show composeAux env i (s :: rest)
            = (s, ⟨s.duration_seconds.getD 0, ClipKind.placeholder, none⟩)
              :: composeAux env i rest from by
          simp only [composeAux, sceneStep_ai_miss env i s hok hvt hlt]]
        rw [List.filter_cons_of_pos (by simpa using hai), List.map_cons]
        rw [ih i hrest, hcnt]
        have hge : (sortStrings env.aiImageFiles).length ≤ i := not_lt.mp hlt
        rw [List.drop_eq_nil_of_le hge]
        simp only [List.take_nil, List.map_nil, List.nil_append]
        rw [show rest.countP isAiScene + 1
              - ((sortStrings env.aiImageFiles).length - i)
            = rest.countP isAiScene
              - ((sortStrings env.aiImageFiles).length - i) + 1 from by
          omega]
        rw [show rest.countP isAiScene
              - ((sortStrings env.aiImageFiles).length - i)
            = rest.countP isAiScene from by omega]
        exact (List.replicate_succ _ _).symm
    · have hvt' : s.visual_type.getD "" ≠ "ai_image" := by
        intro hcon
        apply hai
        rcases hsv : s.visual_type with _ | v
        · rw [hsv] at hcon
          exact absurd hcon (by decide)
        · rw [hsv] at hcon
          simp only [Option.getD_some] at hcon
          simp [isAiScene, hsv, hcon]
      obtain ⟨c, hc, -⟩ := sceneStep_ok env i s hok
      have hfst := sceneStep_fst_nonai env i s hok hvt'
      rcases hstep : sceneStep env i s with ⟨i2, oc⟩
      rw [hstep] at hc hfst
      simp only at hc hfst
      subst hc
      rw [hfst] at hstep
      rw [show composeAux env i (s :: rest)
          = (s, c) :: composeAux env i rest from by
        simp only [composeAux, hstep]]
      rw [List.filter_cons_of_neg (by simpa using hai)]
      rw [ih i hrest, List.countP_cons]
      simp [hai]

/-- C5, counterexample.  With AI images `{1.jpeg, 2.jpeg, 10.jpeg}` on disk,
the source's pool order is the *lexicographic* `sorted(...)` order
`[1.jpeg, 10.jpeg, 2.jpeg]`, not the numeric order `[1.jpeg, 2.jpeg,
10.jpeg]`: the second `ai_image` scene receives `10.jpeg`, while the claim's
numeric pool order would give it `2.jpeg`. -/
theorem claim_C5_counterexample :
    ((composeClips
      ⟨none, ["2.jpeg", "1.jpeg", "10.jpeg"], fun _ => [], fun _ => 0,
        false, none⟩
      [Scene.mk (some 1) (some "ai_image") (some 3),
       Scene.mk (some 2) (some "ai_image") (some 3)]).map
        (fun p => p.2.aiSrc)) = [some "1.jpeg", some "10.jpeg"] ∧
    (specNumericPool ["2.jpeg", "1.jpeg", "10.jpeg"]).take 2
      = ["1.jpeg", "2.jpeg"] ∧
    (some "10.jpeg" : Option String) ≠ some "2.jpeg" := by
  have hsort : sortStrings ["2.jpeg", "1.jpeg", "10.jpeg"]
      = ["1.jpeg", "10.jpeg", "2.jpeg"] := by decide
  refine ⟨?_, by decide, by decide⟩
  norm_num [composeClips, composeAux, sceneStep, sceneDataOk, truthyNum,
    truthyStr, truthyQ, loadScene, setDurationTo, hsort,
    eq_false (show ¬("ai_image" = "") from by decide),
    eq_false (show ¬("ai_image" = "hook") from by decide)]

/-- C5 (amended): the Nth `ai_image` scene encountered in scene order
receives the Nth image of the pool in *lexicographic filename order* (the
source sorts the glob results as strings, which agrees with numeric order
only while it is lexicographic); once the pool is exhausted every remaining
`ai_image` scene yields a placeholder — of exactly its `duration_seconds`,
like every clip — and no exception is thrown. -/
theorem claim_C5_pool_order (env : Env) (scenes : List Scene)
    (h : ∀ s ∈ scenes, sceneDataOk s = true) :
    ((composeClips env scenes).filter (fun p => isAiScene p.1)).map
        (fun p => (p.2.aiSrc, p.2.kind))
      = ((sortStrings env.aiImageFiles).take (scenes.countP isAiScene)).map
          (fun f => (some f, ClipKind.real))
        ++ List.replicate
            (scenes.countP isAiScene - (sortStrings env.aiImageFiles).length)
            ((none : Option String), ClipKind.placeholder) ∧
    (∀ p ∈ composeClips env scenes,
      p.2.duration = p.1.duration_seconds.getD 0) := by
  have h1 := composeAux_ai_info env scenes 0 h
  rw [List.drop_zero, Nat.sub_zero] at h1
  exact ⟨h1, (composeAux_all_ok env scenes 0 h).2.2⟩

/-- Witness for C5's amended theorem: three pool images, four `ai_image`
scenes — the fourth resolves to a placeholder. -/
theorem claim_C5_witness :
    ((composeClips
      ⟨none, ["2.jpeg", "1.jpeg", "10.jpeg"], fun _ => [], fun _ => 0,
        false, none⟩
      [Scene.mk (some 1) (some "ai_image") (some 3),
       Scene.mk (some 2) (some "ai_image") (some 3),
       Scene.mk (some 3) (some "ai_image") (some 3),
       Scene.mk (some 4) (some "ai_image") (some 3)]).filter
        (fun p => isAiScene p.1)).map (fun p => (p.2.aiSrc, p.2.kind))
      = ((sortStrings ["2.jpeg", "1.jpeg", "10.jpeg"]).take
          ([Scene.mk (some 1) (some "ai_image") (some 3),
            Scene.mk (some 2) (some "ai_image") (some 3),
            Scene.mk (some 3) (some "ai_image") (some 3),
            Scene.mk (some 4) (some "ai_image") (some 3)].countP
            isAiScene)).map (fun f => (some f, ClipKind.real))
        ++ List.replicate
            ([Scene.mk (some 1) (some "ai_image") (some 3),
              Scene.mk (some 2) (some "ai_image") (some 3),
              Scene.mk (some 3) (some "ai_image") (some 3),
              Scene.mk (some 4) (some "ai_image") (some 3)].countP isAiScene
              - (sortStrings ["2.jpeg", "1.jpeg", "10.jpeg"]).length)
            ((none : Option String), ClipKind.placeholder) :=
  (claim_C5_pool_order
    ⟨none, ["2.jpeg", "1.jpeg", "10.jpeg"], fun _ => [], fun _ => 0,
      false, none⟩
    [Scene.mk (some 1) (some "ai_image") (some 3),
     Scene.mk (some 2) (some "ai_image") (some 3),
     Scene.mk (some 3) (some "ai_image") (some 3),
     Scene.mk (some 4) (some "ai_image") (some 3)]
    (by
      intro s hs
      fin_cases hs <;>
        norm_num [sceneDataOk, truthyNum, truthyStr, truthyQ,
          eq_false (show ¬("ai_image" = "") from by decide)])).1

end VideoProductor
